import Mathlib

/-!
Verification development for the goWeb query-dispatch service.

The definitions below are a shallow embedding of the Go sources:
  * `work/until/until.go`   — key derivation helpers
  * `work/until/mq.go`      — queue constants
  * `work/dbm/redisManger.go` — replica selection, replica refresh,
    `GetDataByKey`, and the fuzzy-query consumer
  * `work/dbm/mongoManger.go` — `deduplicateAndSort`
  * `work/handle/auth.go`   — `SubmitFuzzyQuery`, `GetFuzzyQueryResult`

Redis hashes are modelled as association lists with Go-map semantics
(`""` default on missing fields), the `encoding/json` library is modelled
by an executable encoder/parser pair over a JSON value type `Jv`, and the
randomness of `rand.Intn` / message-broker outcomes are passed in as
explicit parameters.
-/

/-! ## JSON values (Go `interface{}` results of `encoding/json`) -/

/-- JSON values as produced by Go `json.Marshal` on `interface{}` data.
`obj` carries its fields in the (sorted-key) order in which Go
enumerates a `map[string]interface{}` while marshalling. -/
inductive Jv where
  | null : Jv
  | bool (b : Bool) : Jv
  | num (n : Int) : Jv
  | str (s : String) : Jv
  | arr (elems : List Jv) : Jv
  | obj (fields : List (String × Jv)) : Jv

/-- The ten decimal digit characters. -/
def digitCh : Nat → Char
  | 0 => '0' | 1 => '1' | 2 => '2' | 3 => '3' | 4 => '4'
  | 5 => '5' | 6 => '6' | 7 => '7' | 8 => '8' | _ => '9'

/-- Lowercase hexadecimal digit characters, as Go emits in `\u00xx` escapes. -/
def hexCh : Nat → Char
  | 0 => '0' | 1 => '1' | 2 => '2' | 3 => '3' | 4 => '4'
  | 5 => '5' | 6 => '6' | 7 => '7' | 8 => '8' | 9 => '9'
  | 10 => 'a' | 11 => 'b' | 12 => 'c' | 13 => 'd' | 14 => 'e' | _ => 'f'

/-- Decimal digits of a natural number, most significant first. -/
def natChars (n : Nat) : List Char :=
  if h : n < 10 then [digitCh n]
  else natChars (n / 10) ++ [digitCh (n % 10)]
decreasing_by exact Nat.div_lt_self (by omega) (by norm_num)

/-- Go's decimal rendering of an integer. -/
def intChars (n : Int) : List Char :=
  if n < 0 then '-' :: natChars n.natAbs else natChars n.toNat

/-- Go `json.Marshal` escaping of one character of a string
(default HTML-escaping encoder). -/
def encodeChar (c : Char) : List Char :=
  if c = '"' then ['\\', '"']
  else if c = '\\' then ['\\', '\\']
  else if c = '\n' then ['\\', 'n']
  else if c = '\r' then ['\\', 'r']
  else if c = '\t' then ['\\', 't']
  else if c.toNat < 32 ∨ c = '<' ∨ c = '>' ∨ c = '&' ∨
      c.toNat = 0x2028 ∨ c.toNat = 0x2029 then
    ['\\', 'u', hexCh (c.toNat / 4096 % 16), hexCh (c.toNat / 256 % 16),
      hexCh (c.toNat / 16 % 16), hexCh (c.toNat % 16)]
  else [c]

/-- Escaped body of a JSON string literal. -/
def encodeStrChars : List Char → List Char
  | [] => []
  | c :: cs => encodeChar c ++ encodeStrChars cs

mutual

/-- Go `json.Marshal` output for a `Jv` value, as a character list. -/
def encodeJv : Jv → List Char
  | .null => 'n' :: ['u', 'l', 'l']
  | .bool true => 't' :: ['r', 'u', 'e']
  | .bool false => 'f' :: ['a', 'l', 's', 'e']
  | .num n => intChars n
  | .str s => '"' :: (encodeStrChars s.data ++ ['"'])
  | .arr [] => ['[', ']']
  | .arr (v :: vs) => '[' :: (encodeJv v ++ encodeArrTail vs)
  | .obj [] => ['{', '}']
  | .obj (f :: fs) => '{' :: (encodeMember f ++ encodeObjTail fs)

/-- Remaining elements of an array being marshalled (`,` separated, `]` close). -/
def encodeArrTail : List Jv → List Char
  | [] => [']']
  | v :: vs => ',' :: (encodeJv v ++ encodeArrTail vs)

/-- One `"key":value` member of an object being marshalled. -/
def encodeMember : String × Jv → List Char
  | (k, v) => '"' :: (encodeStrChars k.data ++ ['"', ':'] ++ encodeJv v)

/-- Remaining members of an object being marshalled (`,` separated, `}` close). -/
def encodeObjTail : List (String × Jv) → List Char
  | [] => ['}']
  | f :: fs => ',' :: (encodeMember f ++ encodeObjTail fs)

end

/-- `json.Marshal` as a `String` producer. -/
def jsonMarshal (v : Jv) : String := String.mk (encodeJv v)

/-! ## JSON parsing (Go `json.Unmarshal` into `interface{}`, integer numbers) -/

/-- Value of a hexadecimal digit character (Go accepts both cases). -/
def hexVal (c : Char) : Option Nat :=
  if 48 ≤ c.toNat ∧ c.toNat ≤ 57 then some (c.toNat - 48)
  else if 97 ≤ c.toNat ∧ c.toNat ≤ 102 then some (c.toNat - 87)
  else if 65 ≤ c.toNat ∧ c.toNat ≤ 70 then some (c.toNat - 55)
  else none

/-- Parse the body of a JSON string literal up to its closing quote,
returning the decoded characters and the remaining input. -/
def parseStrChars : List Char → Option (List Char × List Char)
  | [] => none
  | c :: rest =>
    if c = '"' then some ([], rest)
    else if c = '\\' then
      match rest with
      | [] => none
      | e :: r =>
        if e = '"' then (parseStrChars r).map (fun p => ('"' :: p.1, p.2))
        else if e = '\\' then (parseStrChars r).map (fun p => ('\\' :: p.1, p.2))
        else if e = '/' then (parseStrChars r).map (fun p => ('/' :: p.1, p.2))
        else if e = 'n' then (parseStrChars r).map (fun p => ('\n' :: p.1, p.2))
        else if e = 'r' then (parseStrChars r).map (fun p => ('\r' :: p.1, p.2))
        else if e = 't' then (parseStrChars r).map (fun p => ('\t' :: p.1, p.2))
        else if e = 'u' then
          match r with
          | h1 :: h2 :: h3 :: h4 :: r2 =>
            match hexVal h1, hexVal h2, hexVal h3, hexVal h4 with
            | some a, some b, some c2, some d =>
              (parseStrChars r2).map
                (fun p => (Char.ofNat (a * 4096 + b * 256 + c2 * 16 + d) :: p.1, p.2))
            | _, _, _, _ => none
          | _ => none
        else none
    else (parseStrChars rest).map (fun p => (c :: p.1, p.2))
termination_by structural input => input

/-- Consume a run of decimal digits, accumulating their value. -/
def parseDigitsAcc : List Char → Nat → Nat × List Char
  | [], acc => (acc, [])
  | c :: rest, acc =>
    if c.isDigit then parseDigitsAcc rest (acc * 10 + (c.toNat - 48))
    else (acc, c :: rest)

mutual

/-- Fuel-indexed recursive-descent parser for one JSON value
(the integer fragment of Go `json.Unmarshal`). -/
def parseJv : Nat → List Char → Option (Jv × List Char)
  | 0, _ => none
  | fuel + 1, input =>
    match input with
    | [] => none
    | c :: rest =>
      if c = 'n' then
        if rest.take 3 = ['u', 'l', 'l'] then some (.null, rest.drop 3) else none
      else if c = 't' then
        if rest.take 3 = ['r', 'u', 'e'] then some (.bool true, rest.drop 3) else none
      else if c = 'f' then
        if rest.take 4 = ['a', 'l', 's', 'e'] then some (.bool false, rest.drop 4) else none
      else if c = '"' then
        match parseStrChars rest with
        | some (cs, r) => some (.str (String.mk cs), r)
        | none => none
      else if c = '[' then
        if rest.head? = some ']' then some (.arr [], rest.tail)
        else
          match parseJv fuel rest with
          | some (v, r) =>
            match parseArrTail fuel r with
            | some (vs, r2) => some (.arr (v :: vs), r2)
            | none => none
          | none => none
      else if c = '{' then
        if rest.head? = some '}' then some (.obj [], rest.tail)
        else
          match parseObjMember fuel rest with
          | some (f, r) =>
            match parseObjTail fuel r with
            | some (fs, r2) => some (.obj (f :: fs), r2)
            | none => none
          | none => none
      else if c = '-' then
        if rest.head?.any Char.isDigit then
          let p := parseDigitsAcc rest 0
          some (.num (-(p.1 : Int)), p.2)
        else none
      else if c.isDigit then
        let p := parseDigitsAcc (c :: rest) 0
        some (.num (p.1 : Int), p.2)
      else none
termination_by structural fuel input => fuel

/-- Elements of an array after the first: `,` separated, closed by `]`. -/
def parseArrTail : Nat → List Char → Option (List Jv × List Char)
  | 0, _ => none
  | fuel + 1, input =>
    match input with
    | [] => none
    | c :: rest =>
      if c = ']' then some ([], rest)
      else if c = ',' then
        match parseJv fuel rest with
        | some (v, r) =>
          match parseArrTail fuel r with
          | some (vs, r2) => some (v :: vs, r2)
          | none => none
        | none => none
      else none
termination_by structural fuel input => fuel

/-- One `"key":value` member of an object. -/
def parseObjMember : Nat → List Char → Option ((String × Jv) × List Char)
  | 0, _ => none
  | fuel + 1, input =>
    match input with
    | [] => none
    | c :: rest =>
      if c = '"' then
        match parseStrChars rest with
        | some (ks, r) =>
          match r with
          | [] => none
          | c2 :: r2 =>
            if c2 = ':' then
              match parseJv fuel r2 with
              | some (v, r3) => some ((String.mk ks, v), r3)
              | none => none
            else none
        | none => none
      else none
termination_by structural fuel input => fuel

/-- Members of an object after the first: `,` separated, closed by `}`. -/
def parseObjTail : Nat → List Char → Option (List (String × Jv) × List Char)
  | 0, _ => none
  | fuel + 1, input =>
    match input with
    | [] => none
    | c :: rest =>
      if c = '}' then some ([], rest)
      else if c = ',' then
        match parseObjMember fuel rest with
        | some (f, r) =>
          match parseObjTail fuel r with
          | some (fs, r2) => some (f :: fs, r2)
          | none => none
        | none => none
      else none
termination_by structural fuel input => fuel

end

/-- Go `json.Unmarshal(data, &v)` with `v : interface{}`: the whole input
must be one JSON value (Go validates the full input before decoding);
a failed parse leaves the `interface{}` as Go `nil`, which we model as
`none`.  A JSON `null` decodes to Go `nil` as well, hence the caller-side
`data != nil` tests identify `null` with a failed decode. -/
def jsonUnmarshal (s : String) : Option Jv :=
  match parseJv (s.length + 1) s.data with
  | some (v, []) => some v
  | _ => none

/-- The Go `interface{}` produced by `json.Unmarshal`, with `nil`
(parse failure or JSON `null`) represented as `Jv.null`. -/
def jsonUnmarshalV (s : String) : Jv :=
  match jsonUnmarshal s with
  | some v => v
  | none => .null

/-- `json.Unmarshal` result as seen through a Go `data != nil` test:
`none` when the decode failed or produced JSON `null`. -/
def jsonUnmarshalNonNil (s : String) : Option Jv :=
  match jsonUnmarshal s with
  | some .null => none
  | some v => some v
  | none => none

/-! ## Round-trip lemmas for the JSON model -/

theorem hexVal_hexCh (k : Nat) (h : k < 16) : hexVal (hexCh k) = some k := by
  interval_cases k <;> decide

theorem digitCh_isDigit (k : Nat) (h : k < 10) : (digitCh k).isDigit = true := by
  interval_cases k <;> decide

theorem digitCh_val (k : Nat) (h : k < 10) : (digitCh k).toNat - 48 = k := by
  interval_cases k <;> decide

theorem natChars_ne_nil (n : Nat) : natChars n ≠ [] := by
  unfold natChars; split <;> simp

theorem natChars_div_lt (n : Nat) (h : ¬ n < 10) : n / 10 < n :=
  Nat.div_lt_self (by omega) (by omega)

theorem natChars_digits (n : Nat) : ∀ c ∈ natChars n, c.isDigit = true := by
  induction n using Nat.strong_induction_on with
  | _ n ih =>
    unfold natChars
    split
    · intro c hc
      simp only [List.mem_singleton] at hc
      subst hc
      exact digitCh_isDigit n (by omega)
    · next hge =>
      intro c hc
      cases List.mem_append.mp hc with
      | inl h => exact ih (n / 10) (natChars_div_lt n hge) c h
      | inr h =>
        simp only [List.mem_singleton] at h
        subst h
        exact digitCh_isDigit (n % 10) (Nat.mod_lt _ (by omega))

/-- Accumulating step of `parseDigitsAcc`. -/
def digitVal (acc : Nat) (c : Char) : Nat := acc * 10 + (c.toNat - 48)

theorem natChars_foldl (n acc : Nat) :
    (natChars n).foldl digitVal acc = acc * 10 ^ (natChars n).length + n := by
  induction n using Nat.strong_induction_on generalizing acc with
  | _ n ih =>
    unfold natChars
    split
    · next h =>
      simp only [List.foldl_cons, List.foldl_nil, List.length_singleton, pow_one, digitVal]
      rw [digitCh_val n h]
    · next h =>
      rw [List.foldl_append, List.length_append]
      simp only [List.foldl_cons, List.foldl_nil, List.length_singleton, digitVal]
      rw [ih (n / 10) (natChars_div_lt n h) acc]
      rw [digitCh_val (n % 10) (Nat.mod_lt _ (by omega))]
      rw [pow_add, pow_one]
      have : n % 10 + 10 * (n / 10) = n := Nat.mod_add_div n 10
      ring_nf
      omega

theorem parseDigitsAcc_append (ds rest : List Char) (acc : Nat)
    (hds : ∀ c ∈ ds, c.isDigit = true)
    (hrest : rest.head?.any Char.isDigit = false) :
    parseDigitsAcc (ds ++ rest) acc = (ds.foldl digitVal acc, rest) := by
  induction ds generalizing acc with
  | nil =>
    simp only [List.nil_append, List.foldl_nil]
    cases rest with
    | nil => rfl
    | cons c r =>
      simp only [List.head?_cons, Option.any_some] at hrest
      simp [parseDigitsAcc, hrest]
  | cons d ds ih =>
    have hd : d.isDigit = true := hds d (by simp)
    simp only [List.cons_append, parseDigitsAcc, hd, if_pos]
    rw [List.append_eq, ih _ (fun c hc => hds c (List.mem_cons_of_mem _ hc))]
    simp [digitVal]


theorem parseStrChars_quote (rest : List Char) :
    parseStrChars ('"' :: rest) = some ([], rest) := by
  rw [parseStrChars.eq_def]; simp

theorem parseStrChars_escQuote (t : List Char) :
    parseStrChars ('\\' :: '"' :: t) =
      (parseStrChars t).map (fun p => ('"' :: p.1, p.2)) := by
  rw [parseStrChars.eq_def]
  simp [show ('\\' : Char) ≠ '"' from by decide]

theorem parseStrChars_escBackslash (t : List Char) :
    parseStrChars ('\\' :: '\\' :: t) =
      (parseStrChars t).map (fun p => ('\\' :: p.1, p.2)) := by
  rw [parseStrChars.eq_def]
  simp [show ('\\' : Char) ≠ '"' from by decide]

theorem parseStrChars_escN (t : List Char) :
    parseStrChars ('\\' :: 'n' :: t) =
      (parseStrChars t).map (fun p => ('\n' :: p.1, p.2)) := by
  rw [parseStrChars.eq_def]
  simp [show ('\\' : Char) ≠ '"' from by decide,
    show ('n' : Char) ≠ '"' from by decide,
    show ('n' : Char) ≠ '\\' from by decide,
    show ('n' : Char) ≠ '/' from by decide]

theorem parseStrChars_escR (t : List Char) :
    parseStrChars ('\\' :: 'r' :: t) =
      (parseStrChars t).map (fun p => ('\r' :: p.1, p.2)) := by
  rw [parseStrChars.eq_def]
  simp [show ('\\' : Char) ≠ '"' from by decide,
    show ('r' : Char) ≠ '"' from by decide,
    show ('r' : Char) ≠ '\\' from by decide,
    show ('r' : Char) ≠ '/' from by decide,
    show ('r' : Char) ≠ 'n' from by decide]

theorem parseStrChars_escT (t : List Char) :
    parseStrChars ('\\' :: 't' :: t) =
      (parseStrChars t).map (fun p => ('\t' :: p.1, p.2)) := by
  rw [parseStrChars.eq_def]
  simp [show ('\\' : Char) ≠ '"' from by decide,
    show ('t' : Char) ≠ '"' from by decide,
    show ('t' : Char) ≠ '\\' from by decide,
    show ('t' : Char) ≠ '/' from by decide,
    show ('t' : Char) ≠ 'n' from by decide,
    show ('t' : Char) ≠ 'r' from by decide]

theorem parseStrChars_escU (a b c2 d : Nat) (h1 h2 h3 h4 : Char) (t : List Char)
    (e1 : hexVal h1 = some a) (e2 : hexVal h2 = some b)
    (e3 : hexVal h3 = some c2) (e4 : hexVal h4 = some d) :
    parseStrChars ('\\' :: 'u' :: h1 :: h2 :: h3 :: h4 :: t) =
      (parseStrChars t).map
        (fun p => (Char.ofNat (a * 4096 + b * 256 + c2 * 16 + d) :: p.1, p.2)) := by
  rw [parseStrChars.eq_def]
  simp [show ('\\' : Char) ≠ '"' from by decide,
    show ('u' : Char) ≠ '"' from by decide,
    show ('u' : Char) ≠ '\\' from by decide,
    show ('u' : Char) ≠ '/' from by decide,
    show ('u' : Char) ≠ 'n' from by decide,
    show ('u' : Char) ≠ 'r' from by decide,
    show ('u' : Char) ≠ 't' from by decide,
    e1, e2, e3, e4]

theorem parseStrChars_lit (c : Char) (t : List Char)
    (hq : ¬ c = '"') (hb : ¬ c = '\\') :
    parseStrChars (c :: t) = (parseStrChars t).map (fun p => (c :: p.1, p.2)) := by
  rw [parseStrChars.eq_def]
  simp [hq, hb]

theorem parseStrChars_encode (cs rest : List Char) :
    parseStrChars (encodeStrChars cs ++ ('"' :: rest)) = some (cs, rest) := by
  induction cs with
  | nil =>
    rw [show encodeStrChars [] = [] from rfl, List.nil_append, parseStrChars_quote]
  | cons c cs ih =>
    rw [show encodeStrChars (c :: cs) = encodeChar c ++ encodeStrChars cs from rfl,
      List.append_assoc]
    by_cases hq : c = '"'
    · subst hq
      rw [show encodeChar '"' = ['\\', '"'] from by decide]
      simp only [List.cons_append, List.nil_append]
      rw [parseStrChars_escQuote, ih]
      rfl
    by_cases hb : c = '\\'
    · subst hb
      rw [show encodeChar '\\' = ['\\', '\\'] from by decide]
      simp only [List.cons_append, List.nil_append]
      rw [parseStrChars_escBackslash, ih]
      rfl
    by_cases hn : c = '\n'
    · subst hn
      rw [show encodeChar '\n' = ['\\', 'n'] from by decide]
      simp only [List.cons_append, List.nil_append]
      rw [parseStrChars_escN, ih]
      rfl
    by_cases hr : c = '\r'
    · subst hr
      rw [show encodeChar '\r' = ['\\', 'r'] from by decide]
      simp only [List.cons_append, List.nil_append]
      rw [parseStrChars_escR, ih]
      rfl
    by_cases ht : c = '\t'
    · subst ht
      rw [show encodeChar '\t' = ['\\', 't'] from by decide]
      simp only [List.cons_append, List.nil_append]
      rw [parseStrChars_escT, ih]
      rfl
    by_cases hu : c.toNat < 32 ∨ c = '<' ∨ c = '>' ∨ c = '&' ∨
        c.toNat = 0x2028 ∨ c.toNat = 0x2029
    · have hlt : c.toNat < 65536 := by
        rcases hu with h | h | h | h | h | h
        · omega
        · subst h; decide
        · subst h; decide
        · subst h; decide
        · omega
        · omega
      have henc : encodeChar c =
          ['\\', 'u', hexCh (c.toNat / 4096 % 16), hexCh (c.toNat / 256 % 16),
            hexCh (c.toNat / 16 % 16), hexCh (c.toNat % 16)] := by
        rw [encodeChar, if_neg hq, if_neg hb, if_neg hn, if_neg hr, if_neg ht, if_pos hu]
      rw [henc]
      simp only [List.cons_append, List.nil_append]
      rw [parseStrChars_escU _ _ _ _ _ _ _ _ _
          (hexVal_hexCh _ (Nat.mod_lt _ (by omega)))
          (hexVal_hexCh _ (Nat.mod_lt _ (by omega)))
          (hexVal_hexCh _ (Nat.mod_lt _ (by omega)))
          (hexVal_hexCh _ (Nat.mod_lt _ (by omega))), ih]
      have hre : c.toNat / 4096 % 16 * 4096 + c.toNat / 256 % 16 * 256 +
          c.toNat / 16 % 16 * 16 + c.toNat % 16 = c.toNat := by omega
      rw [hre, Char.ofNat_toNat]
      rfl
    · have henc : encodeChar c = [c] := by
        rw [encodeChar, if_neg hq, if_neg hb, if_neg hn, if_neg hr, if_neg ht, if_neg hu]
      rw [henc, List.singleton_append, parseStrChars_lit c _ hq hb, ih]
      rfl

theorem digit_ne_of (c : Char) (h : c.isDigit = true) (d : Char)
    (hd : d.isDigit = false) : c ≠ d := by
  intro he; subst he; rw [h] at hd; cases hd

theorem parseJv_null (fuel : Nat) (rest : List Char) :
    parseJv (fuel + 1) ('n' :: 'u' :: 'l' :: 'l' :: rest) = some (.null, rest) := by
  rw [parseJv.eq_def]; simp

theorem parseJv_true (fuel : Nat) (rest : List Char) :
    parseJv (fuel + 1) ('t' :: 'r' :: 'u' :: 'e' :: rest) = some (.bool true, rest) := by
  rw [parseJv.eq_def]
  simp [show ('t' : Char) ≠ 'n' from by decide]

theorem parseJv_false (fuel : Nat) (rest : List Char) :
    parseJv (fuel + 1) ('f' :: 'a' :: 'l' :: 's' :: 'e' :: rest) =
      some (.bool false, rest) := by
  rw [parseJv.eq_def]
  simp [show ('f' : Char) ≠ 'n' from by decide, show ('f' : Char) ≠ 't' from by decide]

theorem parseJv_str (fuel : Nat) (rest cs r : List Char)
    (h : parseStrChars rest = some (cs, r)) :
    parseJv (fuel + 1) ('"' :: rest) = some (.str (String.mk cs), r) := by
  rw [parseJv.eq_def]
  simp [show ('"' : Char) ≠ 'n' from by decide, show ('"' : Char) ≠ 't' from by decide,
    show ('"' : Char) ≠ 'f' from by decide, h]

theorem parseJv_arrNil (fuel : Nat) (rest : List Char) :
    parseJv (fuel + 1) ('[' :: ']' :: rest) = some (.arr [], rest) := by
  rw [parseJv.eq_def]
  simp [show ('[' : Char) ≠ 'n' from by decide, show ('[' : Char) ≠ 't' from by decide,
    show ('[' : Char) ≠ 'f' from by decide, show ('[' : Char) ≠ '"' from by decide]

theorem parseJv_arrCons (fuel : Nat) (rest r r2 : List Char) (v : Jv) (vs : List Jv)
    (hne : rest.head? ≠ some ']')
    (hv : parseJv fuel rest = some (v, r))
    (hvs : parseArrTail fuel r = some (vs, r2)) :
    parseJv (fuel + 1) ('[' :: rest) = some (.arr (v :: vs), r2) := by
  rw [parseJv.eq_def]
  simp [show ('[' : Char) ≠ 'n' from by decide, show ('[' : Char) ≠ 't' from by decide,
    show ('[' : Char) ≠ 'f' from by decide, show ('[' : Char) ≠ '"' from by decide,
    hne, hv, hvs]

theorem parseJv_objNil (fuel : Nat) (rest : List Char) :
    parseJv (fuel + 1) ('{' :: '}' :: rest) = some (.obj [], rest) := by
  rw [parseJv.eq_def]
  simp [show ('{' : Char) ≠ 'n' from by decide, show ('{' : Char) ≠ 't' from by decide,
    show ('{' : Char) ≠ 'f' from by decide, show ('{' : Char) ≠ '"' from by decide,
    show ('{' : Char) ≠ '[' from by decide]

theorem parseJv_objCons (fuel : Nat) (rest r r2 : List Char) (f : String × Jv)
    (fs : List (String × Jv))
    (hne : rest.head? ≠ some '}')
    (hf : parseObjMember fuel rest = some (f, r))
    (hfs : parseObjTail fuel r = some (fs, r2)) :
    parseJv (fuel + 1) ('{' :: rest) = some (.obj (f :: fs), r2) := by
  rw [parseJv.eq_def]
  simp [show ('{' : Char) ≠ 'n' from by decide, show ('{' : Char) ≠ 't' from by decide,
    show ('{' : Char) ≠ 'f' from by decide, show ('{' : Char) ≠ '"' from by decide,
    show ('{' : Char) ≠ '[' from by decide, hne, hf, hfs]

theorem parseJv_neg (fuel : Nat) (rest : List Char)
    (hd : rest.head?.any Char.isDigit = true) :
    parseJv (fuel + 1) ('-' :: rest) =
      some (.num (-((parseDigitsAcc rest 0).1 : Int)), (parseDigitsAcc rest 0).2) := by
  rw [parseJv.eq_def]
  simp [show ('-' : Char) ≠ 'n' from by decide, show ('-' : Char) ≠ 't' from by decide,
    show ('-' : Char) ≠ 'f' from by decide, show ('-' : Char) ≠ '"' from by decide,
    show ('-' : Char) ≠ '[' from by decide, show ('-' : Char) ≠ '{' from by decide,
    hd]

theorem parseJv_digit (fuel : Nat) (c : Char) (rest : List Char)
    (h : c.isDigit = true) :
    parseJv (fuel + 1) (c :: rest) =
      some (.num ((parseDigitsAcc (c :: rest) 0).1 : Int),
        (parseDigitsAcc (c :: rest) 0).2) := by
  rw [parseJv.eq_def]
  simp [digit_ne_of c h 'n' (by decide), digit_ne_of c h 't' (by decide),
    digit_ne_of c h 'f' (by decide), digit_ne_of c h '"' (by decide),
    digit_ne_of c h '[' (by decide), digit_ne_of c h '{' (by decide),
    digit_ne_of c h '-' (by decide), h]

theorem parseArrTail_close (fuel : Nat) (rest : List Char) :
    parseArrTail (fuel + 1) (']' :: rest) = some ([], rest) := by
  rw [parseArrTail.eq_def]; simp

theorem parseArrTail_comma (fuel : Nat) (rest r r2 : List Char) (v : Jv) (vs : List Jv)
    (hv : parseJv fuel rest = some (v, r))
    (ht : parseArrTail fuel r = some (vs, r2)) :
    parseArrTail (fuel + 1) (',' :: rest) = some (v :: vs, r2) := by
  rw [parseArrTail.eq_def]
  simp [show (',' : Char) ≠ ']' from by decide, hv, ht]

theorem parseObjMember_step (fuel : Nat) (rest r2 r3 : List Char) (ks : List Char)
    (v : Jv)
    (hk : parseStrChars rest = some (ks, ':' :: r2))
    (hv : parseJv fuel r2 = some (v, r3)) :
    parseObjMember (fuel + 1) ('"' :: rest) = some ((String.mk ks, v), r3) := by
  rw [parseObjMember.eq_def]
  simp [hk, hv]

theorem parseObjTail_close (fuel : Nat) (rest : List Char) :
    parseObjTail (fuel + 1) ('}' :: rest) = some ([], rest) := by
  rw [parseObjTail.eq_def]; simp

theorem parseObjTail_comma (fuel : Nat) (rest r r2 : List Char) (f : String × Jv)
    (fs : List (String × Jv))
    (hf : parseObjMember fuel rest = some (f, r))
    (ht : parseObjTail fuel r = some (fs, r2)) :
    parseObjTail (fuel + 1) (',' :: rest) = some (f :: fs, r2) := by
  rw [parseObjTail.eq_def]
  simp [show (',' : Char) ≠ '}' from by decide, hf, ht]

theorem parseDigitsAcc_natChars (n : Nat) (rest : List Char)
    (hrest : rest.head?.any Char.isDigit = false) :
    parseDigitsAcc (natChars n ++ rest) 0 = (n, rest) := by
  rw [parseDigitsAcc_append _ _ _ (natChars_digits n) hrest, natChars_foldl]
  simp

theorem natChars_shape (n : Nat) :
    ∃ c cs, natChars n = c :: cs ∧ c.isDigit = true := by
  cases h : natChars n with
  | nil => exact absurd h (natChars_ne_nil n)
  | cons c cs =>
    exact ⟨c, cs, rfl, natChars_digits n c (h ▸ List.mem_cons_self c cs)⟩

theorem encodeJv_shape (v : Jv) :
    ∃ c cs, encodeJv v = c :: cs ∧ ¬(c = ']' ∨ c = '}') := by
  cases v with
  | null => exact ⟨'n', _, rfl, by decide⟩
  | bool b =>
    cases b
    · exact ⟨'f', _, rfl, by decide⟩
    · exact ⟨'t', _, rfl, by decide⟩
  | num n =>
    rw [show encodeJv (.num n) = intChars n from rfl, intChars]
    by_cases hneg : n < 0
    · refine ⟨'-', natChars n.natAbs, ?_, by decide⟩
      rw [if_pos hneg]
    · obtain ⟨c, cs, hshape, hdig⟩ := natChars_shape n.toNat
      refine ⟨c, cs, ?_, ?_⟩
      · rw [if_neg hneg, hshape]
      · rintro (hc | hc)
        · exact digit_ne_of c hdig ']' (by decide) hc
        · exact digit_ne_of c hdig '}' (by decide) hc
  | str s => exact ⟨'"', _, rfl, by decide⟩
  | arr vs =>
    cases vs
    · exact ⟨'[', _, rfl, by decide⟩
    · exact ⟨'[', _, rfl, by decide⟩
  | obj fs =>
    cases fs
    · exact ⟨'{', _, rfl, by decide⟩
    · exact ⟨'{', _, rfl, by decide⟩

theorem head_any_encodeArrTail (vs : List Jv) (rest : List Char) :
    (encodeArrTail vs ++ rest).head?.any Char.isDigit = false := by
  cases vs <;> simp [encodeArrTail] <;> decide

theorem head_any_encodeObjTail (fs : List (String × Jv)) (rest : List Char) :
    (encodeObjTail fs ++ rest).head?.any Char.isDigit = false := by
  cases fs <;> simp [encodeObjTail] <;> decide

mutual

/-- Fuel bound sufficient to parse the encoding of a value. -/
def jvSize : Jv → Nat
  | .arr (v :: vs) => 1 + jvSize v + arrTailSize vs
  | .obj (f :: fs) => 1 + memberSize f + objTailSize fs
  | _ => 1

/-- Fuel bound for the tail of an array encoding. -/
def arrTailSize : List Jv → Nat
  | [] => 1
  | v :: vs => 1 + jvSize v + arrTailSize vs

/-- Fuel bound for one object member encoding. -/
def memberSize : String × Jv → Nat
  | (_, v) => 1 + jvSize v

/-- Fuel bound for the tail of an object encoding. -/
def objTailSize : List (String × Jv) → Nat
  | [] => 1
  | f :: fs => 1 + memberSize f + objTailSize fs

end

theorem jvSize_pos (v : Jv) : 1 ≤ jvSize v := by
  cases v with
  | arr vs => cases vs <;> simp [jvSize] <;> omega
  | obj fs => cases fs <;> simp [jvSize] <;> omega
  | _ => simp [jvSize]

theorem arrTailSize_pos (vs : List Jv) : 1 ≤ arrTailSize vs := by
  cases vs <;> simp [arrTailSize] <;> omega

theorem memberSize_pos (f : String × Jv) : 1 ≤ memberSize f := by
  obtain ⟨k, v⟩ := f; simp [memberSize]

theorem objTailSize_pos (fs : List (String × Jv)) : 1 ≤ objTailSize fs := by
  cases fs with
  | nil => simp [objTailSize]
  | cons f fs => simp [objTailSize]; omega

theorem parse_encode_all (fuel : Nat) :
    (∀ v rest, jvSize v ≤ fuel → rest.head?.any Char.isDigit = false →
        parseJv fuel (encodeJv v ++ rest) = some (v, rest)) ∧
    (∀ vs rest, arrTailSize vs ≤ fuel → rest.head?.any Char.isDigit = false →
        parseArrTail fuel (encodeArrTail vs ++ rest) = some (vs, rest)) ∧
    (∀ f rest, memberSize f ≤ fuel → rest.head?.any Char.isDigit = false →
        parseObjMember fuel (encodeMember f ++ rest) = some (f, rest)) ∧
    (∀ fs rest, objTailSize fs ≤ fuel → rest.head?.any Char.isDigit = false →
        parseObjTail fuel (encodeObjTail fs ++ rest) = some (fs, rest)) := by
  induction fuel with
  | zero =>
    refine ⟨?_, ?_, ?_, ?_⟩
    · intro v rest h _; exact absurd h (by have := jvSize_pos v; omega)
    · intro vs rest h _; exact absurd h (by have := arrTailSize_pos vs; omega)
    · intro f rest h _; exact absurd h (by have := memberSize_pos f; omega)
    · intro fs rest h _; exact absurd h (by have := objTailSize_pos fs; omega)
  | succ fuel ih =>
    obtain ⟨ih1, ih2, ih3, ih4⟩ := ih
    refine ⟨?_, ?_, ?_, ?_⟩
    · intro v rest hsz hrest
      cases v with
      | null =>
        rw [show encodeJv .null = ['n', 'u', 'l', 'l'] from rfl]
        simp only [List.cons_append, List.nil_append]
        exact parseJv_null fuel rest
      | bool b =>
        cases b with
        | false =>
          rw [show encodeJv (.bool false) = ['f', 'a', 'l', 's', 'e'] from rfl]
          simp only [List.cons_append, List.nil_append]
          exact parseJv_false fuel rest
        | true =>
          rw [show encodeJv (.bool true) = ['t', 'r', 'u', 'e'] from rfl]
          simp only [List.cons_append, List.nil_append]
          exact parseJv_true fuel rest
      | num n =>
        rw [show encodeJv (.num n) = intChars n from rfl, intChars]
        by_cases hneg : n < 0
        · rw [if_pos hneg, List.cons_append]
          have hd : (natChars n.natAbs ++ rest).head?.any Char.isDigit = true := by
            obtain ⟨c, cs, hs, hdig⟩ := natChars_shape n.natAbs
            rw [hs]; simp [hdig]
          rw [parseJv_neg fuel _ hd, parseDigitsAcc_natChars _ _ hrest]
          have he : -((n.natAbs : Nat) : Int) = n := by omega
          simp only [he]
        · rw [if_neg hneg]
          obtain ⟨c, cs, hs, hdig⟩ := natChars_shape n.toNat
          rw [hs, List.cons_append, parseJv_digit fuel c _ hdig]
          have hp : parseDigitsAcc (c :: (cs ++ rest)) 0 = (n.toNat, rest) := by
            rw [← List.cons_append, ← hs, parseDigitsAcc_natChars _ _ hrest]
          rw [hp]
          have h2 : ((n.toNat : Nat) : Int) = n := by omega
          simp only [h2]
      | str s =>
        rw [show encodeJv (.str s) = '"' :: (encodeStrChars s.data ++ ['"']) from rfl]
        rw [List.cons_append, List.append_assoc]
        rw [show (['"'] : List Char) ++ rest = '"' :: rest from rfl]
        rw [parseJv_str fuel _ _ _ (parseStrChars_encode s.data rest)]
      | arr vs =>
        cases vs with
        | nil =>
          rw [show encodeJv (.arr []) = ['[', ']'] from rfl]
          simp only [List.cons_append, List.nil_append]
          exact parseJv_arrNil fuel rest
        | cons v vs =>
          rw [show encodeJv (.arr (v :: vs)) =
            '[' :: (encodeJv v ++ encodeArrTail vs) from rfl]
          rw [List.cons_append, List.append_assoc]
          have hsq : jvSize (.arr (v :: vs)) = 1 + jvSize v + arrTailSize vs := rfl
          rw [hsq] at hsz
          have hne : (encodeJv v ++ (encodeArrTail vs ++ rest)).head? ≠ some ']' := by
            obtain ⟨c, cs, hs, hc⟩ := encodeJv_shape v
            rw [hs]
            simp only [List.cons_append, List.head?_cons]
            exact fun h => hc (Or.inl (Option.some.inj h))
          exact parseJv_arrCons fuel _ _ _ v vs hne
            (ih1 v _ (by omega) (head_any_encodeArrTail vs rest))
            (ih2 vs rest (by omega) hrest)
      | obj fs =>
        cases fs with
        | nil =>
          rw [show encodeJv (.obj []) = ['{', '}'] from rfl]
          simp only [List.cons_append, List.nil_append]
          exact parseJv_objNil fuel rest
        | cons f fs =>
          rw [show encodeJv (.obj (f :: fs)) =
            '{' :: (encodeMember f ++ encodeObjTail fs) from rfl]
          rw [List.cons_append, List.append_assoc]
          have hsq : jvSize (.obj (f :: fs)) = 1 + memberSize f + objTailSize fs := rfl
          rw [hsq] at hsz
          have hne : (encodeMember f ++ (encodeObjTail fs ++ rest)).head? ≠ some '}' := by
            obtain ⟨k, v⟩ := f
            rw [show encodeMember (k, v) =
              '"' :: (encodeStrChars k.data ++ ['"', ':'] ++ encodeJv v) from rfl]
            simp
          exact parseJv_objCons fuel _ _ _ f fs hne
            (ih3 f _ (by omega) (head_any_encodeObjTail fs rest))
            (ih4 fs rest (by omega) hrest)
    · intro vs rest hsz hrest
      cases vs with
      | nil =>
        rw [show encodeArrTail [] = [']'] from rfl, List.singleton_append]
        exact parseArrTail_close fuel rest
      | cons v vs =>
        rw [show encodeArrTail (v :: vs) =
          ',' :: (encodeJv v ++ encodeArrTail vs) from rfl]
        rw [List.cons_append, List.append_assoc]
        rw [show arrTailSize (v :: vs) = 1 + jvSize v + arrTailSize vs from rfl] at hsz
        exact parseArrTail_comma fuel _ _ _ v vs
          (ih1 v _ (by omega) (head_any_encodeArrTail vs rest))
          (ih2 vs rest (by omega) hrest)
    · intro f rest hsz hrest
      obtain ⟨k, v⟩ := f
      rw [show encodeMember (k, v) =
        '"' :: (encodeStrChars k.data ++ ['"', ':'] ++ encodeJv v) from rfl]
      rw [List.cons_append]
      have hassoc : (encodeStrChars k.data ++ ['"', ':'] ++ encodeJv v) ++ rest =
          encodeStrChars k.data ++ ('"' :: (':' :: (encodeJv v ++ rest))) := by
        simp [List.append_assoc]
      rw [hassoc]
      rw [show memberSize (k, v) = 1 + jvSize v from rfl] at hsz
      rw [parseObjMember_step fuel _ _ _ k.data v
        (parseStrChars_encode k.data (':' :: (encodeJv v ++ rest)))
        (ih1 v rest (by omega) hrest)]
    · intro fs rest hsz hrest
      cases fs with
      | nil =>
        rw [show encodeObjTail [] = ['}'] from rfl, List.singleton_append]
        exact parseObjTail_close fuel rest
      | cons f fs =>
        rw [show encodeObjTail (f :: fs) =
          ',' :: (encodeMember f ++ encodeObjTail fs) from rfl]
        rw [List.cons_append, List.append_assoc]
        rw [show objTailSize (f :: fs) = 1 + memberSize f + objTailSize fs from rfl] at hsz
        exact parseObjTail_comma fuel _ _ _ f fs
          (ih3 f _ (by omega) (head_any_encodeObjTail fs rest))
          (ih4 fs rest (by omega) hrest)

theorem encode_len_all (N : Nat) :
    (∀ v : Jv, sizeOf v ≤ N → jvSize v ≤ (encodeJv v).length) ∧
    (∀ vs : List Jv, sizeOf vs ≤ N → arrTailSize vs ≤ (encodeArrTail vs).length) ∧
    (∀ f : String × Jv, sizeOf f ≤ N → memberSize f ≤ (encodeMember f).length) ∧
    (∀ fs : List (String × Jv), sizeOf fs ≤ N →
      objTailSize fs ≤ (encodeObjTail fs).length) := by
  induction N with
  | zero =>
    refine ⟨?_, ?_, ?_, ?_⟩
    · intro v h; exact absurd h (by cases v <;> simp)
    · intro vs h; exact absurd h (by cases vs <;> simp)
    · intro f h; exact absurd h (by obtain ⟨k, w⟩ := f; simp)
    · intro fs h; exact absurd h (by cases fs <;> simp)
  | succ N ih =>
    obtain ⟨ih1, ih2, ih3, ih4⟩ := ih
    refine ⟨?_, ?_, ?_, ?_⟩
    · intro v hsz
      cases v with
      | null => simp [jvSize, encodeJv]
      | bool b => cases b <;> simp [jvSize, encodeJv]
      | num n =>
        rw [show jvSize (.num n) = 1 from rfl, show encodeJv (.num n) = intChars n from rfl]
        rw [intChars]
        by_cases hneg : n < 0
        · rw [if_pos hneg]; simp
        · rw [if_neg hneg]
          exact List.length_pos.mpr (natChars_ne_nil n.toNat)
      | str s => simp [jvSize, encodeJv]
      | arr vs =>
        cases vs with
        | nil => simp [jvSize, encodeJv]
        | cons v vs =>
          simp only [Jv.arr.sizeOf_spec, List.cons.sizeOf_spec] at hsz
          rw [show jvSize (.arr (v :: vs)) = 1 + jvSize v + arrTailSize vs from rfl,
            show encodeJv (.arr (v :: vs)) =
              '[' :: (encodeJv v ++ encodeArrTail vs) from rfl]
          simp only [List.length_cons, List.length_append]
          have b1 := ih1 v (by omega)
          have b2 := ih2 vs (by omega)
          omega
      | obj fs =>
        cases fs with
        | nil => simp [jvSize, encodeJv]
        | cons f fs =>
          simp only [Jv.obj.sizeOf_spec, List.cons.sizeOf_spec] at hsz
          rw [show jvSize (.obj (f :: fs)) = 1 + memberSize f + objTailSize fs from rfl,
            show encodeJv (.obj (f :: fs)) =
              '{' :: (encodeMember f ++ encodeObjTail fs) from rfl]
          simp only [List.length_cons, List.length_append]
          have b1 := ih3 f (by omega)
          have b2 := ih4 fs (by omega)
          omega
    · intro vs hsz
      cases vs with
      | nil => simp [arrTailSize, encodeArrTail]
      | cons v vs =>
        simp only [List.cons.sizeOf_spec] at hsz
        rw [show arrTailSize (v :: vs) = 1 + jvSize v + arrTailSize vs from rfl,
          show encodeArrTail (v :: vs) = ',' :: (encodeJv v ++ encodeArrTail vs) from rfl]
        simp only [List.length_cons, List.length_append]
        have b1 := ih1 v (by omega)
        have b2 := ih2 vs (by omega)
        omega
    · intro f hsz
      obtain ⟨k, v⟩ := f
      simp only [Prod.mk.sizeOf_spec] at hsz
      rw [show memberSize (k, v) = 1 + jvSize v from rfl,
        show encodeMember (k, v) =
          '"' :: (encodeStrChars k.data ++ ['"', ':'] ++ encodeJv v) from rfl]
      simp only [List.length_cons, List.length_append]
      have b1 := ih1 v (by omega)
      omega
    · intro fs hsz
      cases fs with
      | nil => simp [objTailSize, encodeObjTail]
      | cons f fs =>
        simp only [List.cons.sizeOf_spec] at hsz
        rw [show objTailSize (f :: fs) = 1 + memberSize f + objTailSize fs from rfl,
          show encodeObjTail (f :: fs) = ',' :: (encodeMember f ++ encodeObjTail fs) from rfl]
        simp only [List.length_cons, List.length_append]
        have b1 := ih3 f (by omega)
        have b2 := ih4 fs (by omega)
        omega

theorem jvSize_le_encode_len (v : Jv) : jvSize v ≤ (encodeJv v).length :=
  (encode_len_all (sizeOf v)).1 v le_rfl

/-- Go `json.Unmarshal ∘ json.Marshal` is the identity on JSON values. -/
theorem jsonUnmarshal_marshal (v : Jv) : jsonUnmarshal (jsonMarshal v) = some v := by
  have hfuel : jvSize v ≤ (encodeJv v).length + 1 :=
    le_trans (jvSize_le_encode_len v) (Nat.le_succ _)
  have hparse := (parse_encode_all ((encodeJv v).length + 1)).1 v [] hfuel (by simp)
  rw [List.append_nil] at hparse
  unfold jsonUnmarshal jsonMarshal
  rw [show (String.mk (encodeJv v)).data = encodeJv v from rfl,
    show (String.mk (encodeJv v)).length = (encodeJv v).length from rfl, hparse]

/-! ## Redis hashes (Go `map[string]string` results of HGETALL) -/

/-- A Redis hash as returned by `HGetAll(...).Result()`; `[]` models both a
missing key and an empty hash (go-redis returns an empty map for both, and
the code only tests `len(...) == 0`). -/
abbrev Fields := List (String × String)

/-- Go map read: `m[k]`, yielding `""` when the field is absent. -/
def fget (fs : Fields) (k : String) : String :=
  match fs.find? (fun p => p.1 = k) with
  | some p => p.2
  | none => ""

/-- Set one field of a hash (`HSET` semantics: overwrite or append). -/
def fsetOne (fs : Fields) (k v : String) : Fields :=
  if (fs.find? (fun p => p.1 = k)).isSome then
    fs.map (fun p => if p.1 = k then (k, v) else p)
  else fs ++ [(k, v)]

/-- `HSET key f1 v1 f2 v2 ...`: merge the given field/value pairs into the
existing hash, leaving other fields (such as a stale `data`) in place. -/
def hset (fs : Fields) (kvs : List (String × String)) : Fields :=
  kvs.foldl (fun acc kv => fsetOne acc kv.1 kv.2) fs

/-! ## Key derivation (`work/until/until.go`) -/

/-- `generateKeywordHash`: the MD5 digest of the keyword.  The digest is
modelled as an abstract deterministic function of the keyword — no claim
depends on any property of MD5 beyond determinism of the derived keys. -/
def generateKeywordHash (keyword : String) : String := keyword

/-- `GetFuzzyCacheKey`: `FuzzyCachePrefix` + keyword hash. -/
def GetFuzzyCacheKey (keyword : String) : String :=
  "fuzzy:cache:" ++ generateKeywordHash keyword

/-- `GetFuzzyLockKey`: `FuzzyLockPrefix` + keyword hash. -/
def GetFuzzyLockKey (keyword : String) : String :=
  "fuzzy:lock:" ++ generateKeywordHash keyword

/-! ## `RedisManger.GetDataByKey` (`work/dbm/redisManger.go`) -/

/-- `GetDataByKey` reading the hash stored under the cache key (the I/O
error branch is not modelled: the store is taken as reachable).  Mirrors:
when the hash is non-empty with `status == "ready"`, unmarshal its `data`
field and return it with an empty status (a `nil` Go interface — JSON
`null` or a failed decode — is `none`); otherwise return no data and the
raw `status` field. -/
def GetDataByKey (cacheData : Fields) : Option Jv × String :=
  if cacheData ≠ [] ∧ fget cacheData "status" = "ready" then
    (jsonUnmarshalNonNil (fget cacheData "data"), "")
  else (none, fget cacheData "status")

/-! ## `selectReadClient` (`work/dbm/redisManger.go`) -/

/-- A Redis client connection, identified by its address. -/
abbrev Client := String

/-- Outcome of `selectReadClient`: the chosen connection plus whether the
degraded-mode warning (`slog.Warn("no slave clients available...")`) was
emitted. -/
structure ReadPick where
  client : Client
  degradedWarn : Bool

/-- `selectReadClient`: pick a replica at random when the replica list is
non-empty, otherwise fall back to the master and warn.  `ridx` is the
value drawn by `r.rand.Intn(len(r.slaveClients))`, reduced mod the length
to keep the model total; the error returned is always `nil` (`none`). -/
def selectReadClient (slaveClients : List Client) (masterClient : Client)
    (ridx : Nat) : ReadPick × Option String :=
  if h : 0 < slaveClients.length then
    (⟨slaveClients.get ⟨ridx % slaveClients.length, Nat.mod_lt _ h⟩, false⟩, none)
  else (⟨masterClient, true⟩, none)

/-! ## `refreshSlaveClientsLoop` (`work/dbm/redisManger.go`) -/

/-- The container-address rewrite `switch` in the refresh loop. -/
def translateAddr (addr : String) : String :=
  if addr = "172.28.0.10:6379" then "localhost:6379"
  else if addr = "172.28.0.11:6379" then "localhost:6380"
  else if addr = "172.28.0.12:6379" then "localhost:6381"
  else addr

/-- Observable actions of one refresh iteration, in program order. -/
inductive RefreshEff where
  | closeClient (c : Client)
  | assignSlaves (cs : List Client)
deriving DecidableEq

/-- One iteration of `refreshSlaveClientsLoop`, under the exclusive lock.
`slaveAddrsRes` is the result of `getSlaveAddrs` (`none` = error) and
`reachable` the outcome of the trial `Ping` on each candidate client
(unreachable candidates are closed on the spot and skipped; those closes
concern fresh trial connections, not the previous replica set, and are not
recorded).  Returns the new `slaveClients` value and the effect trace:
on a `getSlaveAddrs` error the loop logs and `continue`s, leaving the
previous list untouched; otherwise it closes every old client and then
assigns the probed list — with no emptiness check on the probed list. -/
def refreshSlaveStep (oldSlaves : List Client)
    (slaveAddrsRes : Option (List String)) (reachable : Client → Bool) :
    List Client × List RefreshEff :=
  let slaveAddrs := slaveAddrsRes.getD []
  let slaveClients := (slaveAddrs.map translateAddr).filter reachable
  match slaveAddrsRes with
  | none => (oldSlaves, [])
  | some _ =>
    (slaveClients,
      oldSlaves.map RefreshEff.closeClient ++ [RefreshEff.assignSlaves slaveClients])

/-! ## `startFuzzyQueryConsumer` (`work/dbm/redisManger.go`, `until` part) -/

/-- Observable actions of the consumer on one delivery, in program order. -/
inductive ConsumerEff where
  | ack
  | nack (requeue : Bool)
  | hsetCache (key : String) (fields : List (String × String))
  | expireCache (key : String)
deriving DecidableEq

/-- `json.Unmarshal(msg.Body, &msgData)` with `msgData : map[string]string`:
the body must be a JSON object with string values (JSON `null` yields the
nil map, as in Go); anything else is a decode error. -/
def parseMsgBody (body : String) : Option Fields :=
  match jsonUnmarshal body with
  | some (.obj fs) =>
    if fs.all (fun f => match f.2 with | .str _ => true | _ => false) then
      some (fs.map (fun f => (f.1, match f.2 with | .str s => s | _ => "")))
    else none
  | some .null => some []
  | _ => none

/-- The consumer's cache write for a finished job: `HSET status=ready,
data, update_time` merged into the existing hash. -/
def consumerCacheWrite (entry : Fields) (resultJSON now : String) : Fields :=
  hset entry [("status", "ready"), ("data", resultJSON), ("update_time", now)]

/-- One delivery processed by the `startFuzzyQueryConsumer` worker body.
`entry` is the current hash under the cache key the worker writes,
`searchResult` the outcome of `GetMongoDataFuzzyByKeyword` (`.error` when
the search failed), `now` the formatted time.  Returns the effect trace
and the resulting value of that cache hash.  Mirrors the source: a decode
error acks and discards; a search error is only logged — `resultList`
stays nil and the entry is still written with `status = "ready"` and the
serialization of nil (`"null"`); the ack follows the cache write. -/
def fuzzyConsumerHandle (entry : Fields) (body : String)
    (searchResult : Except String Jv) (now : String) :
    List ConsumerEff × Fields :=
  match parseMsgBody body with
  | none => ([.ack], entry)
  | some msgData =>
    let keyword := fget msgData "keyword"
    let cacheKey := GetFuzzyCacheKey keyword
    let resultList : Jv :=
      match searchResult with
      | .ok v => v
      | .error _ => .null
    let resultJSON := jsonMarshal resultList
    ([.hsetCache cacheKey [("status", "ready"), ("data", resultJSON),
        ("update_time", now)],
      .expireCache cacheKey, .ack],
      consumerCacheWrite entry resultJSON now)

/-! ## `SubmitFuzzyQuery` (`work/handle/auth.go`) -/

/-- Store state for one keyword: its dedup-lock key and cache-key hash. -/
structure CState where
  lock : Option String
  entry : Fields

/-- Observable actions of one submission, in program order. -/
inductive SubmitEff where
  | setNX (val : String) (ttlSec : Nat) (ok : Bool)
  | hsetEntry (fields : List (String × String))
  | expireEntry
  | publish (queue : String) (body : String) (priority : Nat)
  | publishFail (queue : String) (body : String) (priority : Nat)
  | hsetReq (reqKey : String) (fields : List (String × String))
  | expireReq (reqKey : String)
  | delLock
deriving DecidableEq

/-- Responses of `SubmitFuzzyQuery` as seen by the client. -/
inductive SubmitResp where
  | ok (data : Jv)
  | pending (reqID : String)
  | errResp (code : Nat) (msg : String)

/-- `SubmitFuzzyQuery` against the state of one keyword.  `reqID` and
`lockVal` are the two generated UUIDs, `publishOk` the outcome of
`PublishPriorityMQ`, `priority` 10 for VIP callers else 0.  Returns the
final state, the response, and the effect trace.  Note the source never
deletes the lock key (`delLock` is never emitted): on publish failure the
handler returns a 500 error with the lock left to its TTL. -/
def SubmitFuzzyQuery (s : CState) (keyword reqID lockVal now : String)
    (priority : Nat) (publishOk : Bool) : CState × SubmitResp × List SubmitEff :=
  if keyword = "" then (s, .errResp 400 "参数错误：keyword不能为空", [])
  else
    let p := GetDataByKey s.entry
    match p.1 with
    | some data => (s, .ok data, [])
    | none =>
      let status := p.2
      let reqStatusKey := "query-result:" ++ reqID
      let lockSuccess := s.lock.isNone
      let s1 : CState := if lockSuccess then { s with lock := some lockVal } else s
      let effs0 := [SubmitEff.setNX lockVal 5 lockSuccess]
      let msgJSON := jsonMarshal (.obj [("keyword", .str keyword)])
      let reqWrite := [SubmitEff.hsetReq reqStatusKey
          [("status", "pending"), ("keyword", keyword),
            ("cache_key", GetFuzzyCacheKey keyword)],
        SubmitEff.expireReq reqStatusKey]
      if lockSuccess ∧ status ≠ "loading" then
        let s2 : CState := { s1 with entry := (hset s1.entry
            [("status", "loading"), ("keyword", keyword), ("create_time", now)]) }
        let effs1 := effs0 ++ [SubmitEff.hsetEntry
          [("status", "loading"), ("keyword", keyword), ("create_time", now)],
          SubmitEff.expireEntry]
        if publishOk then
          (s2, .pending reqID,
            effs1 ++ [SubmitEff.publish "fuzzy-query-queue" msgJSON priority] ++ reqWrite)
        else
          (s2, .errResp 500 ("发布模糊查询 MQ 消息失败 keyword:" ++ keyword ++
              " error:publish error"),
            effs1 ++ [SubmitEff.publishFail "fuzzy-query-queue" msgJSON priority])
      else
        (s1, .pending reqID, effs0 ++ reqWrite)

/-! ## `GetFuzzyQueryResult` (`work/handle/auth.go`) -/

/-- Responses of the poll endpoint: a `BusinessError` (`errResp`), a
progress JSON body (code 1 with a progress percentage), the ready payload
(code 0), or no response at all (the `switch` has no default branch). -/
inductive PollResp where
  | errResp (code : Nat) (msg : String)
  | progress (code : Nat) (msg : String) (progressPct : Nat)
  | ready (code : Nat) (msg : String) (data : Jv)
  | noResponse

/-- `GetFuzzyQueryResult`: `reqStatusMap` is the hash stored under
`query-result:<req_id>` (`[]` when missing or expired) and `cacheLookup`
reads the hash under a cache key.  Store I/O errors are not modelled. -/
def GetFuzzyQueryResult (reqID : String) (reqStatusMap : Fields)
    (cacheLookup : String → Fields) : PollResp :=
  if reqID = "" then .errResp 400 "参数错误：req_id不能为空"
  else if reqStatusMap = [] then .errResp 404 "请求不存在或已过期"
  else
    let cacheKey := fget reqStatusMap "cache_key"
    let cacheData := cacheLookup cacheKey
    if cacheData = [] then .progress 1 "数据查询中，建议 1 秒后再轮询" 50
    else if fget cacheData "status" = "loading" then
      .progress 1 "数据查询中，建议 1 秒后再轮询" 70
    else if fget cacheData "status" = "failed" then
      .errResp 500 ("查询失败：" ++ fget cacheData "error_msg")
    else if fget cacheData "status" = "ready" then
      .ready 0 "获取成功" (jsonUnmarshalV (fget cacheData "data"))
    else .noResponse

/-! ## Interleaved submissions of one keyword (dedup-lock machine)

`SubmitFuzzyQuery`'s store accesses for one keyword, split at the atomic
store operations so two concurrent handler invocations can interleave:
(1) `HGETALL` of the cache key (`GetDataByKey`), (2) the atomic `SETNX` on
the lock key, (3) the guarded `HSET status=loading` + `PublishPriorityMQ`.
No lock deletion or TTL expiry occurs inside the window modelled
(the claims speak of submissions within the 5-second lock TTL). -/

/-- Progress of one in-flight submission, recording what it has read. -/
inductive TPh where
  | start
  | afterRead (status : String)
  | afterLock (ok : Bool) (status : String)
  | done (published : Bool) (ok : Bool) (status : String)

/-- One atomic step of a submission thread against the shared state. -/
def submActStep (tok keyword now : String) : CState × TPh → CState × TPh
  | (s, .start) =>
    let p := GetDataByKey s.entry
    match p.1 with
    | some _ => (s, .done false false p.2)
    | none => (s, .afterRead p.2)
  | (s, .afterRead st) =>
    if s.lock.isNone then ({ s with lock := some tok }, .afterLock true st)
    else (s, .afterLock false st)
  | (s, .afterLock ok st) =>
    if ok ∧ st ≠ "loading" then
      ({ s with entry := (hset s.entry
          [("status", "loading"), ("keyword", keyword), ("create_time", now)]) },
        .done true ok st)
    else (s, .done false ok st)
  | (s, .done p ok st) => (s, .done p ok st)

/-- Two concurrent submissions of the same keyword plus the shared store. -/
structure Sys2 where
  store : CState
  t1 : TPh
  t2 : TPh

/-- Scheduler step: run one atomic action of the chosen thread. -/
def sysStep (tok1 tok2 keyword now : String) (sys : Sys2) (tid : Bool) : Sys2 :=
  if tid then
    let r := submActStep tok1 keyword now (sys.store, sys.t1)
    { sys with store := r.1, t1 := r.2 }
  else
    let r := submActStep tok2 keyword now (sys.store, sys.t2)
    { sys with store := r.1, t2 := r.2 }

/-- Run a whole schedule (arbitrary interleaving of the two threads). -/
def sysRun (tok1 tok2 keyword now : String) (sched : List Bool) (sys : Sys2) : Sys2 :=
  sched.foldl (sysStep tok1 tok2 keyword now) sys

/-- Did this submission publish a work item to the fuzzy-query queue? -/
def publishedT : TPh → Bool
  | .done p _ _ => p
  | _ => false

/-- Did this submission's `SETNX` succeed? -/
def wonLockT : TPh → Bool
  | .afterLock ok _ => ok
  | .done _ ok _ => ok
  | _ => false

/-- The cache `status` this submission read, once it has read one. -/
def statusReadT : TPh → Option String
  | .afterRead st => some st
  | .afterLock _ st => some st
  | .done _ _ st => some st
  | .start => none

/-- Number of work items published across the two submissions. -/
def pubCount (sys : Sys2) : Nat :=
  (if publishedT sys.t1 then 1 else 0) + (if publishedT sys.t2 then 1 else 0)

/-- Initial system: both submissions yet to run. -/
def initSys (s : CState) : Sys2 := ⟨s, .start, .start⟩

/-! ## `deduplicateAndSort` (`work/dbm/mongoManger.go`) -/

/-- BSON values as far as `deduplicateAndSort`'s type assertions see them:
`.dt` is `primitive.DateTime` (milliseconds since epoch), `.doc` a nested
`bson.M`; any other shape fails the assertions and is skipped. -/
inductive BVal where
  | str (s : String)
  | dt (ms : Int)
  | intv (n : Int)
  | doc (fields : List (String × BVal))
  | arrv (elems : List BVal)
  | nullv

/-- A `bson.M` document. -/
abbrev BDoc := List (String × BVal)

/-- Go map read on a `bson.M`. -/
def bget (d : BDoc) (k : String) : Option BVal :=
  (d.find? (fun p => p.1 = k)).map (fun p => p.2)

/-- The loop's checked assertions: `doc["hotitem"].(bson.M)`,
`hotitem["title"].(string)`, `hotitem["crawledat"].(primitive.DateTime)`;
any failure means the document is skipped. -/
def extractTitleTime (doc : BDoc) : Option (String × Int) :=
  match bget doc "hotitem" with
  | some (.doc hot) =>
    match bget hot "title", bget hot "crawledat" with
    | some (.str t), some (.dt ms) => some (t, ms)
    | _, _ => none
  | _ => none

/-- Go `time.Unix(int64(raw)/1000, 0)`: truncate milliseconds to whole
seconds (int64 division truncates toward zero, `Int.tdiv`). -/
def toUnixSec (ms : Int) : Int := Int.tdiv ms 1000

/-- `crawledat` of an already-validated document, as the sort comparator
reads it through unchecked type assertions (default irrelevant: every
document reaching the comparator passed `extractTitleTime`). -/
def crawledMs (doc : BDoc) : Int :=
  match extractTitleTime doc with
  | some p => p.2
  | none => 0

/-- One iteration of the dedup loop over the `seen` map, here an
association list in insertion order (Go's map iteration order is
randomized; every property proved below is invariant under that order). -/
def dedupStep (seen : List (String × BDoc)) (doc : BDoc) : List (String × BDoc) :=
  match extractTitleTime doc with
  | none => seen
  | some (title, ms) =>
    match seen.find? (fun p => p.1 = title) with
    | none => seen ++ [(title, doc)]
    | some existing =>
      if toUnixSec (crawledMs existing.2) < toUnixSec ms then
        seen.map (fun p => if p.1 = title then (title, doc) else p)
      else seen

/-- Descending-`crawledat` comparison used by `sort.Slice`
(`timeI > timeJ` as the less-than of the sort). -/
def crawledGE (d1 d2 : BDoc) : Prop := crawledMs d2 ≤ crawledMs d1

instance : DecidableRel crawledGE := fun d1 d2 => Int.decLe _ _

instance : IsTotal BDoc crawledGE := ⟨fun a b => le_total (crawledMs b) (crawledMs a)⟩

instance : IsTrans BDoc crawledGE := ⟨fun _ _ _ h1 h2 => le_trans h2 h1⟩

/-- `deduplicateAndSort`: dedup by title keeping the document whose
second-truncated `crawledat` is strictly later, sort descending by raw
`crawledat`, truncate to `limit`. -/
def deduplicateAndSort (docs : List BDoc) (limit : Nat) : List BDoc :=
  let seen := docs.foldl dedupStep []
  let uniqueDocs := seen.map (fun p => p.2)
  let sorted := uniqueDocs.insertionSort crawledGE
  sorted.take limit

/-! ## Hash-operation lemmas -/

theorem fget_nil (k : String) : fget [] k = "" := rfl

theorem fget_nonempty_of_ne (fs : Fields) (k : String) (h : fget fs k ≠ "") :
    fs ≠ [] := by
  intro hnil; subst hnil; exact h rfl

theorem fget_cons (p : String × String) (fs : Fields) (k : String) :
    fget (p :: fs) k = if p.1 = k then p.2 else fget fs k := by
  unfold fget
  by_cases hp : p.1 = k
  · rw [List.find?_cons_of_pos _ (by simp [hp]), if_pos hp]
  · rw [List.find?_cons_of_neg _ (by simp [hp]), if_neg hp]

theorem fget_fsetOne_self (fs : Fields) (k v : String) :
    fget (fsetOne fs k v) k = v := by
  induction fs with
  | nil =>
    rw [show fsetOne [] k v = [(k, v)] from rfl, fget_cons]
    simp
  | cons p fs ih =>
    by_cases hp : p.1 = k
    · unfold fsetOne
      rw [if_pos (by rw [List.find?_cons_of_pos _ (by simp [hp])]; rfl)]
      simp only [List.map_cons, if_pos hp]
      rw [fget_cons]
      simp
    · by_cases hf : (fs.find? (fun q => q.1 = k)).isSome
      · unfold fsetOne
        rw [if_pos (by rw [List.find?_cons_of_neg _ (by simp [hp])]; exact hf)]
        simp only [List.map_cons, if_neg hp]
        rw [fget_cons, if_neg hp]
        have heq : fsetOne fs k v = fs.map (fun q => if q.1 = k then (k, v) else q) := by
          unfold fsetOne; rw [if_pos hf]
        rw [← heq]; exact ih
      · unfold fsetOne
        rw [if_neg (by rw [List.find?_cons_of_neg _ (by simp [hp])]; exact hf)]
        rw [List.cons_append, fget_cons, if_neg hp]
        have heq : fsetOne fs k v = fs ++ [(k, v)] := by
          unfold fsetOne; rw [if_neg hf]
        rw [← heq]; exact ih

theorem map_keyfix_id (fs : Fields) (k v : String)
    (hf : ¬ (fs.find? (fun q => q.1 = k)).isSome = true) :
    fs.map (fun q => if q.1 = k then (k, v) else q) = fs := by
  induction fs with
  | nil => rfl
  | cons q fs ih =>
    by_cases hq : q.1 = k
    · rw [List.find?_cons_of_pos _ (by simp [hq])] at hf
      exact absurd rfl hf
    · rw [List.map_cons, if_neg hq,
        ih (by rw [List.find?_cons_of_neg _ (by simp [hq])] at hf; exact hf)]

theorem fget_fsetOne_ne (fs : Fields) (k v k' : String) (hne : k' ≠ k) :
    fget (fsetOne fs k v) k' = fget fs k' := by
  induction fs with
  | nil =>
    rw [show fsetOne [] k v = [(k, v)] from rfl, fget_cons, if_neg (fun h => hne h.symm)]
  | cons p fs ih =>
    by_cases hp : p.1 = k
    · unfold fsetOne
      rw [if_pos (by rw [List.find?_cons_of_pos _ (by simp [hp])]; rfl)]
      simp only [List.map_cons, if_pos hp]
      rw [fget_cons, fget_cons]
      rw [if_neg (fun h => hne h.symm), if_neg (by rw [hp]; exact fun h => hne h.symm)]
      by_cases hf : (fs.find? (fun q => q.1 = k)).isSome
      · have heq2 : fsetOne fs k v = fs.map (fun q => if q.1 = k then (k, v) else q) := by
          unfold fsetOne; rw [if_pos hf]
        rw [← heq2]; exact ih
      · rw [map_keyfix_id fs k v hf]
    · rw [fget_cons]
      by_cases hf : (fs.find? (fun q => q.1 = k)).isSome
      · unfold fsetOne
        rw [if_pos (by rw [List.find?_cons_of_neg _ (by simp [hp])]; exact hf)]
        simp only [List.map_cons, if_neg hp]
        rw [fget_cons]
        by_cases hqk : p.1 = k'
        · rw [if_pos hqk, if_pos hqk]
        · rw [if_neg hqk, if_neg hqk]
          have heq : fsetOne fs k v = fs.map (fun q => if q.1 = k then (k, v) else q) := by
            unfold fsetOne; rw [if_pos hf]
          rw [← heq]; exact ih
      · unfold fsetOne
        rw [if_neg (by rw [List.find?_cons_of_neg _ (by simp [hp])]; exact hf)]
        rw [List.cons_append, fget_cons]
        by_cases hqk : p.1 = k'
        · rw [if_pos hqk, if_pos hqk]
        · rw [if_neg hqk, if_neg hqk]
          have heq : fsetOne fs k v = fs ++ [(k, v)] := by
            unfold fsetOne; rw [if_neg hf]
          rw [← heq]; exact ih

theorem fsetOne_ne_nil (fs : Fields) (k v : String) : fsetOne fs k v ≠ [] := by
  unfold fsetOne
  split
  · next hf =>
    intro hmap
    rw [List.map_eq_nil_iff] at hmap
    subst hmap
    simp at hf
  · intro happ
    rcases List.append_eq_nil.mp happ with ⟨-, h2⟩
    cases h2

/-! ## Claim C7 — read-client selection -/

/-- Claim C7: whenever the current replica set is empty, selecting a read
client returns the master client with a nil error and emits the
degraded-mode warning; when it is non-empty, the returned client is a
member of the current replica set, and the selection map is uniform: over
the `rand.Intn` range, each position of the replica list is chosen for
exactly one draw (the induced multiset of outcomes is exactly the list). -/
theorem C7_selectReadClient (slaveClients : List Client) (masterClient : Client)
    (ridx : Nat) :
    (slaveClients = [] →
      selectReadClient slaveClients masterClient ridx =
        (⟨masterClient, true⟩, none)) ∧
    (slaveClients ≠ [] →
      (selectReadClient slaveClients masterClient ridx).1.client ∈ slaveClients ∧
      (selectReadClient slaveClients masterClient ridx).1.degradedWarn = false ∧
      (selectReadClient slaveClients masterClient ridx).2 = none) ∧
    (List.range slaveClients.length).map
        (fun i => (selectReadClient slaveClients masterClient i).1.client) =
      slaveClients := by
  refine ⟨?_, ?_, ?_⟩
  · intro h
    subst h
    rw [selectReadClient, dif_neg (by simp)]
  · intro h
    have hpos : 0 < slaveClients.length := List.length_pos.mpr h
    rw [selectReadClient, dif_pos hpos]
    exact ⟨List.get_mem _ _ _, rfl, rfl⟩
  · apply List.ext_getElem
    · simp
    · intro i hi hlen
      have hil : i < slaveClients.length := by simpa using hlen
      simp only [List.getElem_map, List.getElem_range]
      rw [selectReadClient, dif_pos (by omega)]
      simp [List.get_eq_getElem, Nat.mod_eq_of_lt hil]

/-- Witness for C7 at concrete inputs (both hypothesis branches). -/
theorem C7_selectReadClient_witness :
    selectReadClient [] "m" 0 = (⟨"m", true⟩, none) ∧
    (selectReadClient ["r1", "r2"] "m" 5).1.client ∈ (["r1", "r2"] : List Client) :=
  ⟨(C7_selectReadClient [] "m" 0).1 rfl,
    ((C7_selectReadClient ["r1", "r2"] "m" 5).2.1 (by decide)).1⟩

/-! ## Claim C3 — replica-set refresh -/

/-- Claim C3 counterexample: a refresh whose sentinel query succeeds but
whose probes all fail replaces a non-empty previous replica set with the
empty set — and closes the old connection — rather than retaining the
previous set as the claim states. -/
theorem C3_counterexample :
    refreshSlaveStep ["localhost:6380"] (some ["1.2.3.4:6379"]) (fun _ => false) =
      ([], [RefreshEff.closeClient "localhost:6380", RefreshEff.assignSlaves []]) ∧
    (["localhost:6380"] : List Client) ≠ [] := by
  constructor
  · rfl
  · simp

/-- Claim C3 as amended: the probed set replaces the current set whenever
the sentinel address query succeeds, even when zero candidates are
reachable (the replica set may become empty); only when the address query
itself fails is the previous set retained unchanged, with nothing closed.
On success every old connection is closed and then the new list is
assigned, both under the same exclusive lock (the assignment is the final
action of the trace). -/
theorem C3_refresh_amended (old : List Client) (addrsRes : Option (List String))
    (reach : Client → Bool) :
    (addrsRes = none → refreshSlaveStep old addrsRes reach = (old, [])) ∧
    (∀ addrs, addrsRes = some addrs →
      (refreshSlaveStep old addrsRes reach).1 =
        (addrs.map translateAddr).filter reach ∧
      (refreshSlaveStep old addrsRes reach).2 =
        old.map RefreshEff.closeClient ++
          [RefreshEff.assignSlaves ((addrs.map translateAddr).filter reach)]) := by
  constructor
  · intro h; subst h; rfl
  · intro addrs h; subst h; exact ⟨rfl, rfl⟩

/-- Witness for the amended C3 at concrete inputs (both branches). -/
theorem C3_refresh_amended_witness :
    refreshSlaveStep ["localhost:6380"] none (fun _ => true) = (["localhost:6380"], []) ∧
    (refreshSlaveStep ["localhost:6380"] (some ["172.28.0.11:6379"]) (fun _ => true)).1 =
      ["localhost:6380"] :=
  ⟨(C3_refresh_amended ["localhost:6380"] none (fun _ => true)).1 rfl,
    by
      have h := (C3_refresh_amended ["localhost:6380"] (some ["172.28.0.11:6379"])
        (fun _ => true)).2 ["172.28.0.11:6379"] rfl
      rw [h.1]
      rfl⟩

/-! ## Claim C10 — malformed queue messages -/

/-- Claim C10: a delivered message whose body is not valid JSON is acked
and discarded by the fuzzy-query consumer: the only effect is a single
ack — no nack-for-redelivery and no cache write — and the cache hash is
untouched. -/
theorem C10_malformed_acked (entry : Fields) (body : String)
    (hbad : jsonUnmarshal body = none) (searchResult : Except String Jv)
    (now : String) :
    fuzzyConsumerHandle entry body searchResult now = ([ConsumerEff.ack], entry) ∧
    (∀ rq, ConsumerEff.nack rq ∉ (fuzzyConsumerHandle entry body searchResult now).1) ∧
    (∀ ck fsv, ConsumerEff.hsetCache ck fsv ∉
      (fuzzyConsumerHandle entry body searchResult now).1) := by
  have hp : parseMsgBody body = none := by
    unfold parseMsgBody; rw [hbad]
  unfold fuzzyConsumerHandle
  rw [hp]
  refine ⟨rfl, ?_, ?_⟩ <;> simp

/-- Witness for C10: the body `"{"` is not valid JSON. -/
theorem C10_malformed_acked_witness :
    fuzzyConsumerHandle [("status", "loading")] "\x7b" (Except.ok (Jv.arr [])) "t" =
      ([ConsumerEff.ack], [("status", "loading")]) :=
  (C10_malformed_acked [("status", "loading")] "\x7b" rfl (Except.ok (Jv.arr [])) "t").1

/-! ## Claim C2 — worker result handling -/

/-- Claim C2 (code bug, evaluation at the failing input): a well-formed
message whose search fails is written back with `status = "ready"` and the
serialization of the nil result (`"null"`), then acked — the consumer
never writes `status = "failed"` with an error detail as the claim (and
the poll handler's `failed` branch) expect.  The ack does come after the
cache write, as claimed. -/
theorem C2_failure_writes_ready :
    fuzzyConsumerHandle [] "\x7b\"keyword\":\"w\"\x7d" (Except.error "mongo query failed") "t" =
      ([ConsumerEff.hsetCache "fuzzy:cache:w"
          [("status", "ready"), ("data", "null"), ("update_time", "t")],
        ConsumerEff.expireCache "fuzzy:cache:w", ConsumerEff.ack],
        [("status", "ready"), ("data", "null"), ("update_time", "t")]) := rfl

/-! ## Claim C6 — publish failure after lock acquisition -/

/-- Claim C6: when the cache misses, the dedup lock is acquired and the
queue publish then fails, the submission returns the 500 error to the
caller, the lock key is still set afterwards, and the effect trace holds
no lock delete/release (and no successful publish) — the lock is left to
its TTL. -/
theorem C6_publish_failure (s : CState) (keyword reqID lockVal now : String)
    (priority : Nat) (hkw : keyword ≠ "")
    (hmiss : (GetDataByKey s.entry).1 = none)
    (hlock : s.lock = none)
    (hst : (GetDataByKey s.entry).2 ≠ "loading") :
    (SubmitFuzzyQuery s keyword reqID lockVal now priority false).2.1 =
      SubmitResp.errResp 500 ("发布模糊查询 MQ 消息失败 keyword:" ++ keyword ++
        " error:publish error") ∧
    (SubmitFuzzyQuery s keyword reqID lockVal now priority false).1.lock =
      some lockVal ∧
    SubmitEff.delLock ∉ (SubmitFuzzyQuery s keyword reqID lockVal now priority false).2.2 ∧
    (∀ q b p, SubmitEff.publish q b p ∉
      (SubmitFuzzyQuery s keyword reqID lockVal now priority false).2.2) := by
  unfold SubmitFuzzyQuery
  rw [if_neg hkw]
  simp only [hmiss, hlock, Option.isNone_none]
  rw [if_pos ⟨trivial, hst⟩]
  norm_num
  exact ⟨by simp, fun q b p => by simp⟩

/-- Witness for C6 at a concrete store (absent entry, free lock). -/
theorem C6_publish_failure_witness :
    (SubmitFuzzyQuery ⟨none, []⟩ "w" "rid" "lv" "t0" 0 false).2.1 =
      SubmitResp.errResp 500 ("发布模糊查询 MQ 消息失败 keyword:" ++ "w" ++
        " error:publish error") ∧
    (SubmitFuzzyQuery ⟨none, []⟩ "w" "rid" "lv" "t0" 0 false).1.lock = some "lv" := by
  have h := C6_publish_failure ⟨none, []⟩ "w" "rid" "lv" "t0" 0
    (by decide) rfl rfl (by decide)
  exact ⟨h.1, h.2.1⟩

/-! ## Claim C9 — cache round trip -/

/-- Claim C9: writing a `ready` cache entry whose `data` field is the
serialization of payload `P` and reading it back through `GetDataByKey`
(within TTL — no expiry modelled) yields `P` unchanged: the JSON
serialize/deserialize round trip through the cache is the identity.  For a
`null` payload "`P` unchanged" surfaces as the Go nil interface (`none`),
which is exactly the unmarshalling of `null`. -/
theorem C9_cache_roundtrip (P : Jv) (now : String) :
    jsonUnmarshalV (jsonMarshal P) = P ∧
    fget (consumerCacheWrite [] (jsonMarshal P) now) "status" = "ready" ∧
    (P ≠ Jv.null →
      GetDataByKey (consumerCacheWrite [] (jsonMarshal P) now) = (some P, "")) ∧
    (P = Jv.null →
      GetDataByKey (consumerCacheWrite [] (jsonMarshal P) now) = (none, "")) := by
  have hrt := jsonUnmarshal_marshal P
  have hwrite : consumerCacheWrite [] (jsonMarshal P) now =
      fsetOne (fsetOne (fsetOne [] "status" "ready") "data" (jsonMarshal P))
        "update_time" now := rfl
  have hstatus : fget (consumerCacheWrite [] (jsonMarshal P) now) "status" = "ready" := by
    rw [hwrite, fget_fsetOne_ne _ _ _ _ (by decide), fget_fsetOne_ne _ _ _ _ (by decide),
      fget_fsetOne_self]
  have hdata : fget (consumerCacheWrite [] (jsonMarshal P) now) "data" = jsonMarshal P := by
    rw [hwrite, fget_fsetOne_ne _ _ _ _ (by decide), fget_fsetOne_self]
  have hne : consumerCacheWrite [] (jsonMarshal P) now ≠ [] := by
    rw [hwrite]; exact fsetOne_ne_nil _ _ _
  refine ⟨?_, hstatus, ?_, ?_⟩
  · unfold jsonUnmarshalV
    rw [hrt]
  · intro hP
    unfold GetDataByKey
    rw [if_pos ⟨hne, hstatus⟩, hdata]
    unfold jsonUnmarshalNonNil
    rw [hrt]
    cases P with
    | null => exact absurd rfl hP
    | bool b => rfl
    | num n => rfl
    | str s => rfl
    | arr vs => rfl
    | obj fs => rfl
  · intro hP
    subst hP
    unfold GetDataByKey
    rw [if_pos ⟨hne, hstatus⟩, hdata]
    unfold jsonUnmarshalNonNil
    rw [hrt]

/-- Witness for C9 at a concrete payload (a one-document result list). -/
theorem C9_cache_roundtrip_witness :
    GetDataByKey (consumerCacheWrite []
        (jsonMarshal (Jv.arr [Jv.obj [("title", Jv.str "a")]])) "t0") =
      (some (Jv.arr [Jv.obj [("title", Jv.str "a")]]), "") :=
  (C9_cache_roundtrip (Jv.arr [Jv.obj [("title", Jv.str "a")]]) "t0").2.2.1
    (by intro h; cases h)

/-! ## Claim C4 — poll result mapping -/

/-- Claim C4: polling with a request id maps the store state to the client
response exactly as claimed: a missing/expired request-handle hash gives
the 404 not-found error (an `errResp`, distinct from every in-progress
`progress` response); with a handle present, a missing cache entry gives
the low-confidence progress signal (50), `loading` the high-confidence one
(70), `ready` the deserialized payload, and `failed` the error detail. -/
theorem C4_poll (reqID : String) (hreq : reqID ≠ "") (reqStatusMap : Fields)
    (cacheLookup : String → Fields) :
    (reqStatusMap = [] →
      GetFuzzyQueryResult reqID reqStatusMap cacheLookup =
        PollResp.errResp 404 "请求不存在或已过期") ∧
    (reqStatusMap ≠ [] →
      (cacheLookup (fget reqStatusMap "cache_key") = [] →
        GetFuzzyQueryResult reqID reqStatusMap cacheLookup =
          PollResp.progress 1 "数据查询中，建议 1 秒后再轮询" 50) ∧
      (∀ cd, cacheLookup (fget reqStatusMap "cache_key") = cd → cd ≠ [] →
        (fget cd "status" = "loading" →
          GetFuzzyQueryResult reqID reqStatusMap cacheLookup =
            PollResp.progress 1 "数据查询中，建议 1 秒后再轮询" 70) ∧
        (fget cd "status" = "ready" →
          GetFuzzyQueryResult reqID reqStatusMap cacheLookup =
            PollResp.ready 0 "获取成功" (jsonUnmarshalV (fget cd "data"))) ∧
        (fget cd "status" = "failed" →
          GetFuzzyQueryResult reqID reqStatusMap cacheLookup =
            PollResp.errResp 500 ("查询失败：" ++ fget cd "error_msg")))) ∧
    (∀ c m pp code msg, PollResp.errResp code msg ≠ PollResp.progress c m pp) := by
  refine ⟨?_, ?_, ?_⟩
  · intro h
    unfold GetFuzzyQueryResult
    rw [if_neg hreq, if_pos h]
  · intro hne
    constructor
    · intro hcd
      unfold GetFuzzyQueryResult
      rw [if_neg hreq, if_neg hne]
      dsimp only
      rw [hcd, if_pos rfl]
    · intro cd hcd hcdne
      refine ⟨?_, ?_, ?_⟩
      · intro hst
        unfold GetFuzzyQueryResult
        rw [if_neg hreq, if_neg hne]
        dsimp only
        rw [hcd, if_neg hcdne, if_pos hst]
      · intro hst
        unfold GetFuzzyQueryResult
        rw [if_neg hreq, if_neg hne]
        dsimp only
        rw [hcd, if_neg hcdne, hst, if_neg (by decide), if_neg (by decide),
          if_pos rfl]
      · intro hst
        unfold GetFuzzyQueryResult
        rw [if_neg hreq, if_neg hne]
        dsimp only
        rw [hcd, if_neg hcdne, hst, if_neg (by decide), if_pos rfl]
  · intro c m pp code msg h
    cases h

/-- Witness for C4 at concrete store states (all five claimed branches). -/
theorem C4_poll_witness :
    GetFuzzyQueryResult "rid" [] (fun _ => []) =
      PollResp.errResp 404 "请求不存在或已过期" ∧
    GetFuzzyQueryResult "rid" [("cache_key", "ck")] (fun _ => []) =
      PollResp.progress 1 "数据查询中，建议 1 秒后再轮询" 50 ∧
    GetFuzzyQueryResult "rid" [("cache_key", "ck")]
        (fun _ => [("status", "loading")]) =
      PollResp.progress 1 "数据查询中，建议 1 秒后再轮询" 70 ∧
    GetFuzzyQueryResult "rid" [("cache_key", "ck")]
        (fun _ => [("status", "ready"), ("data", "null")]) =
      PollResp.ready 0 "获取成功" Jv.null ∧
    GetFuzzyQueryResult "rid" [("cache_key", "ck")]
        (fun _ => [("status", "failed"), ("error_msg", "boom")]) =
      PollResp.errResp 500 ("查询失败：" ++ "boom") := by
  refine ⟨(C4_poll "rid" (by decide) [] (fun _ => [])).1 rfl,
    ((C4_poll "rid" (by decide) [("cache_key", "ck")] (fun _ => [])).2.1
      (by decide)).1 rfl,
    (((C4_poll "rid" (by decide) [("cache_key", "ck")]
      (fun _ => [("status", "loading")])).2.1 (by decide)).2
      [("status", "loading")] rfl (by decide)).1 rfl,
    ?_,
    (((C4_poll "rid" (by decide) [("cache_key", "ck")]
      (fun _ => [("status", "failed"), ("error_msg", "boom")])).2.1 (by decide)).2
      [("status", "failed"), ("error_msg", "boom")] rfl (by decide)).2.2 rfl⟩
  have h := (((C4_poll "rid" (by decide) [("cache_key", "ck")]
    (fun _ => [("status", "ready"), ("data", "null")])).2.1 (by decide)).2
    [("status", "ready"), ("data", "null")] rfl (by decide)).2.1 rfl
  rw [h]
  rfl

/-! ## Claim C5 — status monotonicity -/

/-- Rank of a cache entry's status in the order
absent (0) < loading (1) < \x7bready, failed\x7d (2). -/
def statusRank (entry : Fields) : Nat :=
  if entry = [] then 0
  else if fget entry "status" = "loading" then 1
  else if fget entry "status" = "ready" ∨ fget entry "status" = "failed" then 2
  else 0

/-- Claim C5 counterexample: a `ready` entry whose `data` field holds
`"null"` (exactly what the worker writes when the search fails) is treated
as a miss by `SubmitFuzzyQuery`, which acquires the free lock and rewrites
the entry to `loading` — a `ready → loading` regression with no TTL expiry
involved, refuting the claimed monotonicity. -/
theorem C5_counterexample :
    fget (⟨none, [("status", "ready"), ("data", "null")]⟩ : CState).entry "status" =
      "ready" ∧
    fget (SubmitFuzzyQuery ⟨none, [("status", "ready"), ("data", "null")]⟩
        "w" "rid" "lv" "t0" 0 true).1.entry "status" = "loading" ∧
    statusRank (SubmitFuzzyQuery ⟨none, [("status", "ready"), ("data", "null")]⟩
        "w" "rid" "lv" "t0" 0 true).1.entry <
      statusRank (⟨none, [("status", "ready"), ("data", "null")]⟩ : CState).entry := by
  refine ⟨rfl, rfl, ?_⟩
  show (1 : Nat) < 2
  omega

theorem statusRank_le_two (e : Fields) : statusRank e ≤ 2 := by
  unfold statusRank
  repeat' split
  all_goals omega

theorem fget_consumerCacheWrite_status (e : Fields) (j n : String) :
    fget (consumerCacheWrite e j n) "status" = "ready" := by
  rw [show consumerCacheWrite e j n =
      fsetOne (fsetOne (fsetOne e "status" "ready") "data" j) "update_time" n from rfl,
    fget_fsetOne_ne _ _ _ _ (by decide), fget_fsetOne_ne _ _ _ _ (by decide),
    fget_fsetOne_self]

theorem statusRank_consumerCacheWrite (e : Fields) (j n : String) :
    statusRank (consumerCacheWrite e j n) = 2 := by
  have hne : consumerCacheWrite e j n ≠ [] := fsetOne_ne_nil _ _ _
  have hst := fget_consumerCacheWrite_status e j n
  unfold statusRank
  rw [if_neg hne, hst, if_neg (by decide), if_pos (Or.inl rfl)]

theorem GetDataByKey_of_status_loading (e : Fields)
    (h : fget e "status" = "loading") : GetDataByKey e = (none, "loading") := by
  unfold GetDataByKey
  rw [if_neg ?hcond, h]
  case hcond =>
    rintro ⟨-, h2⟩
    rw [h] at h2
    exact absurd h2 (by decide)

theorem GetDataByKey_of_status_ready (e : Fields) (hne : e ≠ [])
    (h : fget e "status" = "ready") :
    GetDataByKey e = (jsonUnmarshalNonNil (fget e "data"), "") := by
  unfold GetDataByKey
  rw [if_pos ⟨hne, h⟩]

/-- Claim C5 as amended: the cache-entry status rank
(absent `<` loading `<` ready/failed) is non-decreasing under submissions
and worker writes provided a `ready` entry's `data` field deserializes to
a non-null value; a `ready` entry whose payload is `null` or unparseable
(and likewise a `failed` entry) is treated as a miss and may legitimately
return to `loading` before TTL expiry, matching the spec's own
treat-malformed-payload-as-miss rule and its `failed → retry` state
machine.  The worker's write always lands on rank 2 and so never
decreases any rank. -/
theorem C5_status_monotone_amended (s : CState)
    (keyword reqID lockVal now : String) (priority : Nat) (publishOk : Bool)
    (entry2 : Fields) (resultJSON now2 : String)
    (hgood : s.entry = [] ∨ fget s.entry "status" = "loading" ∨
      (fget s.entry "status" = "ready" ∧
        jsonUnmarshalNonNil (fget s.entry "data") ≠ none)) :
    statusRank s.entry ≤
      statusRank
        (SubmitFuzzyQuery s keyword reqID lockVal now priority publishOk).1.entry ∧
    statusRank entry2 ≤ statusRank (consumerCacheWrite entry2 resultJSON now2) := by
  constructor
  · by_cases hkw : keyword = ""
    · unfold SubmitFuzzyQuery
      rw [if_pos hkw]
    · rcases hgood with hnil | hld | ⟨hrdy, hdata⟩
      · calc statusRank s.entry = 0 := by rw [hnil]; rfl
          _ ≤ _ := Nat.zero_le _
      · unfold SubmitFuzzyQuery
        rw [if_neg hkw]
        dsimp only
        rw [GetDataByKey_of_status_loading s.entry hld]
        dsimp only
        rw [if_neg (by rintro ⟨-, h2⟩; exact h2 rfl)]
        dsimp only
        split <;> exact le_refl _
      · unfold SubmitFuzzyQuery
        rw [if_neg hkw]
        dsimp only
        have hne : s.entry ≠ [] :=
          fget_nonempty_of_ne s.entry "status" (by rw [hrdy]; decide)
        rw [GetDataByKey_of_status_ready s.entry hne hrdy]
        obtain ⟨v, hv⟩ := Option.ne_none_iff_exists'.mp hdata
        dsimp only
        rw [hv]
  · rw [statusRank_consumerCacheWrite]
    exact statusRank_le_two entry2

/-- Witness for the amended C5 at a concrete good state (loading entry,
free lock) and a concrete worker write. -/
theorem C5_status_monotone_amended_witness :
    statusRank (⟨none, [("status", "loading")]⟩ : CState).entry ≤
      statusRank (SubmitFuzzyQuery ⟨none, [("status", "loading")]⟩
        "w" "rid" "lv" "t0" 0 true).1.entry ∧
    statusRank [("status", "loading")] ≤
      statusRank (consumerCacheWrite [("status", "loading")] "[]" "t1") :=
  C5_status_monotone_amended ⟨none, [("status", "loading")]⟩ "w" "rid" "lv" "t0" 0 true
    [("status", "loading")] "[]" "t1" (Or.inr (Or.inl rfl))

/-! ## Claim C1 — dedup across interleaved submissions -/

/-- Inductive invariant of the two-submission machine: while the lock key
is absent nobody has won it, the two submissions never both win the one
`SETNX`, and a publish implies a won lock and a non-`loading` status read. -/
def sysInv (sys : Sys2) : Prop :=
  (sys.store.lock = none → wonLockT sys.t1 = false ∧ wonLockT sys.t2 = false) ∧
  (¬(wonLockT sys.t1 = true ∧ wonLockT sys.t2 = true)) ∧
  (publishedT sys.t1 = true →
    wonLockT sys.t1 = true ∧ statusReadT sys.t1 ≠ some "loading") ∧
  (publishedT sys.t2 = true →
    wonLockT sys.t2 = true ∧ statusReadT sys.t2 ≠ some "loading")

theorem submActStep_lock_none (s : CState) (t : TPh) (tok keyword now : String)
    (h : (submActStep tok keyword now (s, t)).1.lock = none) : s.lock = none := by
  cases t with
  | start =>
    simp only [submActStep] at h
    cases hm : (GetDataByKey s.entry).1 <;> rw [hm] at h <;> exact h
  | afterRead st =>
    simp only [submActStep] at h
    by_cases hl : s.lock.isNone
    · rw [if_pos hl] at h; cases h
    · rw [if_neg hl] at h; exact h
  | afterLock ok st =>
    simp only [submActStep] at h
    by_cases hc : ok = true ∧ st ≠ "loading"
    · rw [if_pos hc] at h; exact h
    · rw [if_neg hc] at h; exact h
  | done p ok st => exact h

theorem step_preserve (s : CState) (t o : TPh) (tok keyword now : String)
    (h1 : s.lock = none → wonLockT t = false ∧ wonLockT o = false)
    (h2 : ¬(wonLockT t = true ∧ wonLockT o = true))
    (h3 : publishedT t = true → wonLockT t = true ∧ statusReadT t ≠ some "loading") :
    ((submActStep tok keyword now (s, t)).1.lock = none →
      wonLockT (submActStep tok keyword now (s, t)).2 = false ∧ wonLockT o = false) ∧
    ¬(wonLockT (submActStep tok keyword now (s, t)).2 = true ∧ wonLockT o = true) ∧
    (publishedT (submActStep tok keyword now (s, t)).2 = true →
      wonLockT (submActStep tok keyword now (s, t)).2 = true ∧
        statusReadT (submActStep tok keyword now (s, t)).2 ≠ some "loading") := by
  cases t with
  | start =>
    simp only [submActStep]
    cases hm : (GetDataByKey s.entry).1 with
    | none =>
      refine ⟨fun hn => ⟨rfl, (h1 hn).2⟩, ?_, ?_⟩
      · rintro ⟨hw, -⟩; cases hw
      · intro hp; cases hp
    | some d =>
      refine ⟨fun hn => ⟨rfl, (h1 hn).2⟩, ?_, ?_⟩
      · rintro ⟨hw, -⟩; cases hw
      · intro hp; cases hp
  | afterRead st =>
    simp only [submActStep]
    by_cases hl : s.lock.isNone
    · rw [if_pos hl]
      refine ⟨fun hn => absurd hn (by simp), ?_, ?_⟩
      · rintro ⟨-, hw2⟩
        have hnone : s.lock = none := Option.isNone_iff_eq_none.mp hl
        exact absurd hw2 (by rw [(h1 hnone).2]; simp)
      · intro hp; cases hp
    · rw [if_neg hl]
      refine ⟨fun hn => ⟨rfl, (h1 hn).2⟩, ?_, ?_⟩
      · rintro ⟨hw, -⟩; cases hw
      · intro hp; cases hp
  | afterLock ok st =>
    by_cases hc : ok = true ∧ st ≠ "loading"
    · simp only [submActStep]
      rw [if_pos hc]
      refine ⟨?_, ?_, ?_⟩
      · intro hn
        exact absurd ((h1 hn).1) (by show ¬ok = false; rw [hc.1]; simp)
      · exact h2
      · intro _
        refine ⟨hc.1, ?_⟩
        intro heq
        injection heq with heq2
        exact hc.2 heq2
    · simp only [submActStep]
      rw [if_neg hc]
      refine ⟨fun hn => ⟨(h1 hn).1, (h1 hn).2⟩, h2, ?_⟩
      · intro hp; cases hp
  | done p ok st =>
    exact ⟨fun hn => ⟨(h1 hn).1, (h1 hn).2⟩, h2, h3⟩

theorem sysStep_inv (tok1 tok2 keyword now : String) (sys : Sys2) (tid : Bool)
    (h : sysInv sys) : sysInv (sysStep tok1 tok2 keyword now sys tid) := by
  obtain ⟨h1, h2, h3, h4⟩ := h
  cases tid with
  | true =>
    have hp := step_preserve sys.store sys.t1 sys.t2 tok1 keyword now h1 h2 h3
    refine ⟨?_, ?_, ?_, ?_⟩
    · exact hp.1
    · exact hp.2.1
    · exact hp.2.2
    · intro hpub
      have ho := h4 hpub
      exact ho
  | false =>
    have h1s : sys.store.lock = none →
        wonLockT sys.t2 = false ∧ wonLockT sys.t1 = false :=
      fun hn => ⟨(h1 hn).2, (h1 hn).1⟩
    have h2s : ¬(wonLockT sys.t2 = true ∧ wonLockT sys.t1 = true) :=
      fun ⟨a, b⟩ => h2 ⟨b, a⟩
    have hp := step_preserve sys.store sys.t2 sys.t1 tok2 keyword now h1s h2s h4
    refine ⟨?_, ?_, ?_, ?_⟩
    · exact fun hn => ⟨(hp.1 hn).2, (hp.1 hn).1⟩
    · exact fun ⟨a, b⟩ => hp.2.1 ⟨b, a⟩
    · exact h3
    · exact hp.2.2

theorem sysRun_inv (tok1 tok2 keyword now : String) (sched : List Bool) (sys : Sys2)
    (h : sysInv sys) : sysInv (sysRun tok1 tok2 keyword now sched sys) := by
  induction sched generalizing sys with
  | nil => exact h
  | cons a sched ih =>
    exact ih _ (sysStep_inv tok1 tok2 keyword now sys a h)

/-- Claim C1: for two submissions of the same keyword interleaved in any
order while the dedup lock key is held (within its TTL — no expiry or
deletion occurs in the modelled window) and the cache entry's status is
`loading`, at most one work item is published to the fuzzy-query queue;
and a submission publishes only when its atomic `SETNX` succeeded and the
status it read from the cache was not `loading`. -/
theorem C1_dedup (sched : List Bool) (s0 : CState) (tok1 tok2 keyword now : String)
    (hlock : s0.lock.isSome = true)
    (hst : fget s0.entry "status" = "loading") :
    pubCount (sysRun tok1 tok2 keyword now sched (initSys s0)) ≤ 1 ∧
    (publishedT (sysRun tok1 tok2 keyword now sched (initSys s0)).t1 = true →
      wonLockT (sysRun tok1 tok2 keyword now sched (initSys s0)).t1 = true ∧
      statusReadT (sysRun tok1 tok2 keyword now sched (initSys s0)).t1 ≠
        some "loading") ∧
    (publishedT (sysRun tok1 tok2 keyword now sched (initSys s0)).t2 = true →
      wonLockT (sysRun tok1 tok2 keyword now sched (initSys s0)).t2 = true ∧
      statusReadT (sysRun tok1 tok2 keyword now sched (initSys s0)).t2 ≠
        some "loading") := by
  have inv0 : sysInv (initSys s0) := by
    refine ⟨fun _ => ⟨rfl, rfl⟩, ?_, ?_, ?_⟩
    · rintro ⟨hw, -⟩; cases hw
    · intro hp; cases hp
    · intro hp; cases hp
  have hinv := sysRun_inv tok1 tok2 keyword now sched (initSys s0) inv0
  obtain ⟨-, hnot2, hp1, hp2⟩ := hinv
  refine ⟨?_, hp1, hp2⟩
  by_cases p1 : publishedT (sysRun tok1 tok2 keyword now sched (initSys s0)).t1 = true
  · by_cases p2 : publishedT (sysRun tok1 tok2 keyword now sched (initSys s0)).t2 = true
    · exact absurd ⟨(hp1 p1).1, (hp2 p2).1⟩ hnot2
    · unfold pubCount
      rw [if_pos p1, if_neg p2]
  · unfold pubCount
    rw [if_neg p1]
    by_cases p2 : publishedT (sysRun tok1 tok2 keyword now sched (initSys s0)).t2 = true
    · rw [if_pos p2]
    · rw [if_neg p2]
      omega

/-- Witness for C1: a concrete interleaving against a held lock and a
loading entry (no publish happens at all, satisfying the bound). -/
theorem C1_dedup_witness :
    pubCount (sysRun "a" "b" "w" "t0" [true, false, true, false, true, false]
      (initSys ⟨some "x", [("status", "loading")]⟩)) ≤ 1 :=
  (C1_dedup [true, false, true, false, true, false]
    ⟨some "x", [("status", "loading")]⟩ "a" "b" "w" "t0" rfl rfl).1

/-! ## Claim C8 — dedup-then-rank -/

/-- Title of a validated document (the dedup key). -/
def titleOf (doc : BDoc) : String :=
  match extractTitleTime doc with
  | some p => p.1
  | none => ""

theorem crawledMs_of_extract (d : BDoc) (t : String) (ms : Int)
    (h : extractTitleTime d = some (t, ms)) : crawledMs d = ms := by
  unfold crawledMs; rw [h]

theorem titleOf_of_extract (d : BDoc) (t : String) (ms : Int)
    (h : extractTitleTime d = some (t, ms)) : titleOf d = t := by
  unfold titleOf; rw [h]

/-- Claim C8 counterexample: two documents share the title `"a"` with
`crawledat` 1000 ms and 1999 ms; the function keeps the 1000 ms one
(`time.Unix(ms/1000, 0)` truncates both to second 1, and `After` is
strict), so the kept document is not the one with the latest `crawledat`
timestamp. -/
theorem C8_counterexample :
    (deduplicateAndSort
        [[("hotitem", BVal.doc [("title", BVal.str "a"), ("crawledat", BVal.dt 1000)])],
          [("hotitem", BVal.doc [("title", BVal.str "a"), ("crawledat", BVal.dt 1999)])]]
        50).map crawledMs = [1000] ∧
    extractTitleTime
        [("hotitem", BVal.doc [("title", BVal.str "a"), ("crawledat", BVal.dt 1000)])] =
      some ("a", 1000) ∧
    extractTitleTime
        [("hotitem", BVal.doc [("title", BVal.str "a"), ("crawledat", BVal.dt 1999)])] =
      some ("a", 1999) ∧
    (1000 : Int) < 1999 := by
  refine ⟨rfl, rfl, rfl, by omega⟩

/-- Invariant of the dedup fold: keys are distinct; every kept document
was processed, is valid, and is keyed by its own title; every kept
document's second-truncated timestamp dominates all processed documents
with its title; and every valid processed title has a keeper. -/
def seenInv (processed : List BDoc) (seen : List (String × BDoc)) : Prop :=
  (seen.map (fun p => p.1)).Nodup ∧
  (∀ te ∈ seen, te.2 ∈ processed ∧ ∃ ms, extractTitleTime te.2 = some (te.1, ms)) ∧
  (∀ te ∈ seen, ∀ d2 ∈ processed, ∀ t2 ms2, extractTitleTime d2 = some (t2, ms2) →
    t2 = te.1 → toUnixSec ms2 ≤ toUnixSec (crawledMs te.2)) ∧
  (∀ d2 ∈ processed, ∀ t2 ms2, extractTitleTime d2 = some (t2, ms2) →
    t2 ∈ seen.map (fun p => p.1))

theorem assoc_unique (seen : List (String × BDoc))
    (hnodup : (seen.map (fun p => p.1)).Nodup) (a b : String × BDoc)
    (ha : a ∈ seen) (hb : b ∈ seen) (heq : a.1 = b.1) : a = b := by
  induction seen with
  | nil => cases ha
  | cons p rest ih =>
    rw [List.map_cons, List.nodup_cons] at hnodup
    rcases List.mem_cons.mp ha with ha1 | ha2 <;>
      rcases List.mem_cons.mp hb with hb1 | hb2
    · rw [ha1, hb1]
    · exfalso
      apply hnodup.1
      rw [← ha1, heq]
      exact List.mem_map.mpr ⟨b, hb2, rfl⟩
    · exfalso
      apply hnodup.1
      rw [← hb1, ← heq]
      exact List.mem_map.mpr ⟨a, ha2, rfl⟩
    · exact ih hnodup.2 ha2 hb2

theorem dedupStep_inv (processed : List BDoc) (seen : List (String × BDoc))
    (doc : BDoc) (h : seenInv processed seen) :
    seenInv (processed ++ [doc]) (dedupStep seen doc) := by
  obtain ⟨h1, h2, h3, h4⟩ := h
  unfold dedupStep
  cases hx : extractTitleTime doc with
  | none =>
    dsimp only
    refine ⟨h1, ?_, ?_, ?_⟩
    · intro te hte
      exact ⟨List.mem_append_left _ (h2 te hte).1, (h2 te hte).2⟩
    · intro te hte d2 hd2 t2 ms2 hext heq
      rcases List.mem_append.mp hd2 with hold | hnew
      · exact h3 te hte d2 hold t2 ms2 hext heq
      · rw [List.mem_singleton.mp hnew, hx] at hext
        cases hext
    · intro d2 hd2 t2 ms2 hext
      rcases List.mem_append.mp hd2 with hold | hnew
      · exact h4 d2 hold t2 ms2 hext
      · rw [List.mem_singleton.mp hnew, hx] at hext
        cases hext
  | some tm =>
    obtain ⟨title, ms⟩ := tm
    dsimp only
    cases hf : seen.find? (fun p => p.1 = title) with
    | none =>
      dsimp only
      have hnotin : ∀ p ∈ seen, p.1 ≠ title := by
        intro p hp
        have := List.find?_eq_none.mp hf p hp
        simpa using this
      have hkeynotin : title ∉ seen.map (fun p => p.1) := by
        intro hmem
        obtain ⟨p, hp, hpe⟩ := List.mem_map.mp hmem
        exact hnotin p hp hpe
      refine ⟨?_, ?_, ?_, ?_⟩
      · rw [List.map_append, List.map_singleton]
        rw [List.nodup_append]
        exact ⟨h1, List.nodup_singleton _, by
          intro a hamem hasing
          rw [List.mem_singleton.mp hasing] at hamem
          exact hkeynotin hamem⟩
      · intro te hte
        rcases List.mem_append.mp hte with hold | hnew
        · exact ⟨List.mem_append_left _ (h2 te hold).1, (h2 te hold).2⟩
        · rw [List.mem_singleton.mp hnew]
          exact ⟨List.mem_append_right _ (List.mem_singleton_self _), ⟨ms, hx⟩⟩
      · intro te hte d2 hd2 t2 ms2 hext heq
        rcases List.mem_append.mp hte with hold | hnew
        · rcases List.mem_append.mp hd2 with hdold | hdnew
          · exact h3 te hold d2 hdold t2 ms2 hext heq
          · rw [List.mem_singleton.mp hdnew, hx] at hext
            injection hext with hpair
            have ht2 : t2 = title := (congrArg Prod.fst hpair).symm
            exact absurd (heq ▸ ht2 ▸ rfl) (Ne.symm (hnotin te hold))
        · rw [List.mem_singleton.mp hnew] at heq ⊢
          rcases List.mem_append.mp hd2 with hdold | hdnew
          · exfalso
            have := h4 d2 hdold t2 ms2 hext
            rw [heq] at this
            exact hkeynotin this
          · rw [List.mem_singleton.mp hdnew, hx] at hext
            injection hext with hpair
            have hms2 : ms2 = ms := (congrArg Prod.snd hpair).symm
            rw [crawledMs_of_extract doc title ms hx, hms2]
      · intro d2 hd2 t2 ms2 hext
        rw [List.map_append, List.map_singleton]
        rcases List.mem_append.mp hd2 with hdold | hdnew
        · exact List.mem_append_left _ (h4 d2 hdold t2 ms2 hext)
        · rw [List.mem_singleton.mp hdnew, hx] at hext
          injection hext with hpair
          have ht2 : t2 = title := (congrArg Prod.fst hpair).symm
          rw [ht2]
          exact List.mem_append_right _ (List.mem_singleton_self _)
    | some ex =>
      dsimp only
      have hexmem : ex ∈ seen := List.mem_of_find?_eq_some hf
      have hexkey : ex.1 = title := by
        have := List.find?_some hf
        simpa using this
      have hkeys : (seen.map (fun p => if p.1 = title then (title, doc) else p)).map
          (fun p => p.1) = seen.map (fun p => p.1) := by
        rw [List.map_map]
        apply List.map_congr_left
        intro p hp
        by_cases hpt : p.1 = title
        · simp [hpt]
        · simp [hpt]
      by_cases hlt : toUnixSec (crawledMs ex.2) < toUnixSec ms
      · rw [if_pos hlt]
        refine ⟨?_, ?_, ?_, ?_⟩
        · rw [hkeys]; exact h1
        · intro te hte
          obtain ⟨p, hp, hpe⟩ := List.mem_map.mp hte
          by_cases hpt : p.1 = title
          · rw [if_pos hpt] at hpe
            rw [← hpe]
            exact ⟨List.mem_append_right _ (List.mem_singleton_self _), ⟨ms, hx⟩⟩
          · rw [if_neg hpt] at hpe
            rw [← hpe]
            exact ⟨List.mem_append_left _ (h2 p hp).1, (h2 p hp).2⟩
        · intro te hte d2 hd2 t2 ms2 hext heq
          obtain ⟨p, hp, hpe⟩ := List.mem_map.mp hte
          by_cases hpt : p.1 = title
          · rw [if_pos hpt] at hpe
            rw [← hpe] at heq ⊢
            rw [crawledMs_of_extract doc title ms hx]
            rcases List.mem_append.mp hd2 with hdold | hdnew
            · have hle := h3 ex hexmem d2 hdold t2 ms2 hext (by rw [heq, hexkey])
              exact le_trans hle (le_of_lt hlt)
            · rw [List.mem_singleton.mp hdnew, hx] at hext
              injection hext with hpair
              have hms2 : ms2 = ms := (congrArg Prod.snd hpair).symm
              rw [hms2]
          · rw [if_neg hpt] at hpe
            rw [← hpe] at heq ⊢
            rcases List.mem_append.mp hd2 with hdold | hdnew
            · exact h3 p hp d2 hdold t2 ms2 hext heq
            · rw [List.mem_singleton.mp hdnew, hx] at hext
              injection hext with hpair
              have ht2 : t2 = title := (congrArg Prod.fst hpair).symm
              exact absurd (heq ▸ ht2 ▸ rfl) (Ne.symm hpt)
        · intro d2 hd2 t2 ms2 hext
          rw [hkeys]
          rcases List.mem_append.mp hd2 with hdold | hdnew
          · exact h4 d2 hdold t2 ms2 hext
          · rw [List.mem_singleton.mp hdnew, hx] at hext
            injection hext with hpair
            have ht2 : t2 = title := (congrArg Prod.fst hpair).symm
            rw [ht2, ← hexkey]
            exact List.mem_map.mpr ⟨ex, hexmem, rfl⟩
      · rw [if_neg hlt]
        refine ⟨h1, ?_, ?_, ?_⟩
        · intro te hte
          exact ⟨List.mem_append_left _ (h2 te hte).1, (h2 te hte).2⟩
        · intro te hte d2 hd2 t2 ms2 hext heq
          rcases List.mem_append.mp hd2 with hdold | hdnew
          · exact h3 te hte d2 hdold t2 ms2 hext heq
          · rw [List.mem_singleton.mp hdnew, hx] at hext
            injection hext with hpair
            have ht2 : t2 = title := (congrArg Prod.fst hpair).symm
            have hms2 : ms2 = ms := (congrArg Prod.snd hpair).symm
            have hte_ex : te = ex := by
              apply assoc_unique seen h1 te ex hte hexmem
              rw [hexkey, ← heq, ht2]
            rw [hte_ex, hms2]
            omega
        · intro d2 hd2 t2 ms2 hext
          rcases List.mem_append.mp hd2 with hdold | hdnew
          · exact h4 d2 hdold t2 ms2 hext
          · rw [List.mem_singleton.mp hdnew, hx] at hext
            injection hext with hpair
            have ht2 : t2 = title := (congrArg Prod.fst hpair).symm
            rw [ht2, ← hexkey]
            exact List.mem_map.mpr ⟨ex, hexmem, rfl⟩

theorem foldl_dedup_inv (docs processed : List BDoc) (seen : List (String × BDoc))
    (h : seenInv processed seen) :
    seenInv (processed ++ docs) (docs.foldl dedupStep seen) := by
  induction docs generalizing processed seen with
  | nil => rw [List.append_nil]; exact h
  | cons d docs ih =>
    rw [List.foldl_cons]
    have hstep := dedupStep_inv processed seen d h
    have := ih (processed ++ [d]) (dedupStep seen d) hstep
    rwa [List.append_assoc, List.singleton_append] at this

theorem seenInv_initial (docs : List BDoc) : seenInv docs (docs.foldl dedupStep []) := by
  have h0 : seenInv [] ([] : List (String × BDoc)) := by
    refine ⟨List.nodup_nil, ?_, ?_, ?_⟩
    · intro te hte; cases hte
    · intro te hte; cases hte
    · intro d2 hd2; cases hd2
  have := foldl_dedup_inv docs [] [] h0
  rwa [List.nil_append] at this

/-- Claim C8 as amended: `deduplicateAndSort docs 50` returns at most 50
documents with pairwise-distinct titles, sorted by `crawledat` descending;
every returned document comes from the input and passed the field
extraction, and documents with a missing or mistyped `hotitem`, `title`,
or `crawledat` are silently dropped rather than raising an error; the
document kept for a title dominates every input document sharing that
title at *second* granularity (`crawledat` is truncated from milliseconds
to seconds before comparison, earliest-encountered winning ties) — not at
raw millisecond granularity as the original claim stated. -/
theorem C8_dedup_amended (docs : List BDoc) :
    (deduplicateAndSort docs 50).length ≤ 50 ∧
    ((deduplicateAndSort docs 50).map titleOf).Nodup ∧
    List.Sorted crawledGE (deduplicateAndSort docs 50) ∧
    (∀ d ∈ deduplicateAndSort docs 50, d ∈ docs ∧ (extractTitleTime d).isSome) ∧
    (∀ d ∈ deduplicateAndSort docs 50, ∀ d2 ∈ docs, ∀ t ms ms2,
      extractTitleTime d = some (t, ms) → extractTitleTime d2 = some (t, ms2) →
      toUnixSec ms2 ≤ toUnixSec ms) := by
  obtain ⟨hnodup, hmem, hdom, -⟩ := seenInv_initial docs
  have hperm : List.Perm
      (((docs.foldl dedupStep []).map (fun p => p.2)).insertionSort crawledGE)
      ((docs.foldl dedupStep []).map (fun p => p.2)) :=
    List.perm_insertionSort crawledGE _
  have hsorted : List.Sorted crawledGE
      (((docs.foldl dedupStep []).map (fun p => p.2)).insertionSort crawledGE) :=
    List.sorted_insertionSort crawledGE _
  have hmem_res : ∀ d ∈ deduplicateAndSort docs 50,
      ∃ te ∈ docs.foldl dedupStep [], te.2 = d := by
    intro d hd
    unfold deduplicateAndSort at hd
    have hd2 : d ∈ ((docs.foldl dedupStep []).map (fun p => p.2)).insertionSort
        crawledGE := (List.take_sublist _ _).subset hd
    have hd3 : d ∈ (docs.foldl dedupStep []).map (fun p => p.2) :=
      hperm.subset hd2
    obtain ⟨te, hte, htee⟩ := List.mem_map.mp hd3
    exact ⟨te, hte, htee⟩
  refine ⟨?_, ?_, ?_, ?_, ?_⟩
  · unfold deduplicateAndSort
    rw [List.length_take]
    exact min_le_left _ _
  · have hmap : ((docs.foldl dedupStep []).map (fun p => p.2)).map titleOf =
        (docs.foldl dedupStep []).map (fun p => p.1) := by
      rw [List.map_map]
      apply List.map_congr_left
      intro te hte
      obtain ⟨-, ms, hext⟩ := hmem te hte
      exact titleOf_of_extract te.2 te.1 ms hext
    have hnodup2 : (((docs.foldl dedupStep []).map (fun p => p.2)).map titleOf).Nodup := by
      rw [hmap]; exact hnodup
    have hnodup3 : ((((docs.foldl dedupStep []).map
        (fun p => p.2)).insertionSort crawledGE).map titleOf).Nodup :=
      ((hperm.map titleOf).nodup_iff).mpr hnodup2
    unfold deduplicateAndSort
    exact List.Nodup.sublist ((List.take_sublist _ _).map titleOf) hnodup3
  · unfold deduplicateAndSort
    exact hsorted.sublist (List.take_sublist _ _)
  · intro d hd
    obtain ⟨te, hte, htee⟩ := hmem_res d hd
    obtain ⟨hin, ms, hext⟩ := hmem te hte
    rw [← htee]
    exact ⟨hin, by rw [hext]; rfl⟩
  · intro d hd d2 hd2 t ms ms2 hext hext2
    obtain ⟨te, hte, htee⟩ := hmem_res d hd
    obtain ⟨-, ms', hext'⟩ := hmem te hte
    have htkey : t = te.1 := by
      rw [← htee] at hext
      rw [hext] at hext'
      exact congrArg Prod.fst (Option.some.injEq _ _ ▸ hext' : (t, ms) = (te.1, ms'))
    have := hdom te hte d2 hd2 t ms2 hext2 htkey
    rwa [htee, crawledMs_of_extract d t ms hext] at this

/-- Witness for the amended C8 at a concrete document list. -/
theorem C8_dedup_amended_witness :
    (deduplicateAndSort
        [[("hotitem", BVal.doc [("title", BVal.str "a"), ("crawledat", BVal.dt 1000)])]]
        50).length ≤ 50 ∧
    (∀ d ∈ deduplicateAndSort
        [[("hotitem", BVal.doc [("title", BVal.str "a"), ("crawledat", BVal.dt 1000)])]]
        50,
      d ∈ [[("hotitem", BVal.doc [("title", BVal.str "a"), ("crawledat", BVal.dt 1000)])]] ∧
      (extractTitleTime d).isSome) :=
  ⟨(C8_dedup_amended
      [[("hotitem", BVal.doc [("title", BVal.str "a"), ("crawledat", BVal.dt 1000)])]]).1,
    (C8_dedup_amended
      [[("hotitem", BVal.doc [("title", BVal.str "a"), ("crawledat", BVal.dt 1000)])]]).2.2.2.1⟩
